import Mathlib

/-! # Verification of `tgo`: package `treflect` and the tree operations of package `tos`

The first part embeds `treflect/reflection.go`.  Values of `reflect.Type` and of
`interface{}` are modelled by the observations the functions make of them
(`Kind`, `Elem`, `Implements`, `NumMethod`, `Method`, `MethodByName`, type
assertions).  A Go panic is the result `none`.  Floating-point results are
IEEE-754 data read as rationals, with round-to-nearest-even performed explicitly.
-/

namespace treflect

/-! ## `reflect.Kind` -/

/-- The kinds of `reflect.Kind`, in the order of the Go declaration. -/
inductive Kind where
  | Invalid | Bool
  | Int | Int8 | Int16 | Int32 | Int64
  | Uint | Uint8 | Uint16 | Uint32 | Uint64 | Uintptr
  | Float32 | Float64 | Complex64 | Complex128
  | Array | Chan | Func | Interface | Map | Ptr | Slice | String | Struct
  | UnsafePointer
deriving DecidableEq, Repr

/-! ## Floating point -/

/-- An IEEE-754 binary datum: a signed magnitude, an infinity or a NaN.
`num true 0` is the negative zero. -/
inductive GoFloat where
  | num (neg : Bool) (mag : ℚ)
  | inf (neg : Bool)
  | nan
deriving DecidableEq, Repr

/-- A binary interchange format: precision in bits and exponent range. -/
structure FloatFormat where
  prec : ℕ
  emin : ℤ
  emax : ℤ
deriving DecidableEq, Repr

/-- Go's `float32`. -/
def binary32 : FloatFormat := ⟨24, -126, 127⟩

/-- Go's `float64`. -/
def binary64 : FloatFormat := ⟨53, -1022, 1023⟩

/-- Rounding of a rational to the nearest integer, ties to the even one. -/
def roundHalfEven (x : ℚ) : ℤ :=
  if x - ⌊x⌋ < 1 / 2 then ⌊x⌋
  else if 1 / 2 < x - ⌊x⌋ then ⌊x⌋ + 1
  else if ⌊x⌋ % 2 = 0 then ⌊x⌋ else ⌊x⌋ + 1

/-- The spacing of the format's numbers around the magnitude `x`: the binade of
`x` fixes the exponent, which does not go below `emin` (subnormal range). -/
def ulp (fmt : FloatFormat) (x : ℚ) : ℚ :=
  (2 : ℚ) ^ (max (Int.log 2 x) fmt.emin - ((fmt.prec : ℤ) - 1))

/-- Round-to-nearest-even of a magnitude to the format, exponent unbounded above. -/
def roundMag (fmt : FloatFormat) (x : ℚ) : ℚ :=
  (roundHalfEven (x / ulp fmt x) : ℚ) * ulp fmt x

/-- Rounding of a signed magnitude to the format; a rounded magnitude beyond the
largest finite number overflows to the infinity of that sign. -/
def roundTo (fmt : FloatFormat) (neg : Bool) (mag : ℚ) : GoFloat :=
  if (2 : ℚ) ^ (fmt.emax + 1) ≤ roundMag fmt mag then GoFloat.inf neg
  else GoFloat.num neg (roundMag fmt mag)

/-- Conversion of an integer to the format: `float32(i)`, `float64(i)`. -/
def ofInt (fmt : FloatFormat) (i : ℤ) : GoFloat :=
  roundTo fmt (decide (i < 0)) (|i| : ℤ)

/-- Conversion between floating-point formats: `float32(f)`, `float64(f)`. -/
def convert (fmt : FloatFormat) : GoFloat → GoFloat
  | GoFloat.num s m => roundTo fmt s m
  | GoFloat.inf s => GoFloat.inf s
  | GoFloat.nan => GoFloat.nan

/-- Division `a / b` in the format.  Go's floating-point division does not
panic: a zero divisor gives an infinity, or a NaN for `0 / 0`. -/
def fdiv (fmt : FloatFormat) : GoFloat → GoFloat → GoFloat
  | GoFloat.nan, _ => GoFloat.nan
  | _, GoFloat.nan => GoFloat.nan
  | GoFloat.inf _, GoFloat.inf _ => GoFloat.nan
  | GoFloat.inf s, GoFloat.num t _ => GoFloat.inf (xor s t)
  | GoFloat.num s _, GoFloat.inf t => GoFloat.num (xor s t) 0
  | GoFloat.num s a, GoFloat.num t b =>
    if b = 0 then (if a = 0 then GoFloat.nan else GoFloat.inf (xor s t))
    else roundTo fmt (xor s t) (a / b)

/-! ## `reflect.Type` as seen by `GetMissingMethods` -/

/-- A type occurring in a method signature.  `reflect` compares such types by
the identity of their descriptor and prints them with `String()`. -/
structure TypeRef where
  id : ℕ
  str : String
deriving DecidableEq, Repr

/-- A function type: `In(i)`, `Out(i)`, `IsVariadic()`. -/
structure FuncType where
  In : List TypeRef
  Out : List TypeRef
  Variadic : Bool
deriving DecidableEq, Repr

namespace FuncType

/-- The value of `NumIn()`. -/
def NumIn (f : FuncType) : ℕ := f.In.length

/-- The value of `NumOut()`. -/
def NumOut (f : FuncType) : ℕ := f.Out.length

/-- The parameters as `String()` prints them; the last parameter of a variadic
function is a slice `[]T` and is printed `...T`. -/
def paramStrs : List TypeRef → Bool → List String
  | [], _ => []
  | [t], true => ["..." ++ t.str.drop 2]
  | t :: ts, v => t.str :: paramStrs ts v

/-- The value of `String()`, which is what `%v` prints for a `reflect.Type`. -/
def String (f : FuncType) : String :=
  "func(" ++ ", ".intercalate (paramStrs f.In f.Variadic) ++ ")" ++
    (match f.Out with
      | [] => ""
      | [t] => " " ++ t.str
      | ts => " (" ++ ", ".intercalate (ts.map TypeRef.str) ++ ")")

end FuncType

/-- An entry of a method table (`reflect.Method`): the name, the package path
that qualifies an unexported name (empty for an exported one) and the method's
function type. -/
structure Method where
  Name : String
  PkgPath : String
  Typ : FuncType
deriving DecidableEq, Repr

/-- A runtime type descriptor.  `methods` is sorted by name and holds, for an
interface type, the methods it declares and, for any other type, the whole
method set of the type with the signatures written without the receiver. -/
structure RType where
  self : TypeRef
  kind : Kind
  methods : List Method
deriving DecidableEq, Repr

/-- The lock-step walk of `reflect`'s `implements` over the two sorted method
tables: every method of the interface must be met, with the same name, the
same function type and, when unexported, the same package. -/
def implementsWalk : List Method → List Method → Bool
  | [], _ => true
  | _ :: _, [] => false
  | tm :: ts, vm :: vs =>
    if vm.Name = tm.Name ∧ vm.Typ = tm.Typ ∧ (tm.PkgPath = "" ∨ tm.PkgPath = vm.PkgPath) then
      implementsWalk ts vs
    else implementsWalk (tm :: ts) vs

namespace RType

/-- The method `V.Implements(T)`; it panics when `T` is not an interface type. -/
def Implements (V T : RType) : Option Bool :=
  if T.kind = Kind.Interface then some (implementsWalk T.methods V.methods) else none

/-- The methods reachable through `Method` and `MethodByName`: all of them for
an interface type, the exported ones for any other type, whose function type
then takes the receiver as first parameter. -/
def visibleMethods (t : RType) : List Method :=
  if t.kind = Kind.Interface then t.methods
  else (t.methods.filter (fun m => m.PkgPath = "")).map
    (fun m => { m with Typ := { m.Typ with In := t.self :: m.Typ.In } })

/-- The value of `NumMethod()`. -/
def NumMethod (t : RType) : ℕ := t.visibleMethods.length

/-- The method `MethodByName(name)`. -/
def MethodByName (t : RType) (name : String) : Option Method :=
  t.visibleMethods.find? (fun m => m.Name = name)

end RType

/-! ## `GetMissingMethods` -/

/-- The loop `for oIdx := ...; !signatureMismatch && oIdx < NumOut(); oIdx++`,
entered with `signatureMismatch` false, with `steps` iterations left. -/
def outLoop (ifaceT objT : FuncType) : ℕ → ℕ → Bool
  | 0, _ => false
  | steps + 1, oIdx =>
    if ifaceT.Out[oIdx]? != objT.Out[oIdx]? then true
    else outLoop ifaceT objT steps (oIdx + 1)

/-- The loop `for iIdx := ...; !signatureMismatch && iIdx < NumIn(); iIdx++`,
which compares `In(iIdx)` of the interface with `In(iIdx+1)` of the object. -/
def inLoop (ifaceT objT : FuncType) : ℕ → ℕ → Bool
  | 0, _ => false
  | steps + 1, iIdx =>
    if ifaceT.In[iIdx]? != objT.In[iIdx + 1]? then true
    else inLoop ifaceT objT steps (iIdx + 1)

/-- The `switch` of the loop body once the object's method exists: the final
value of `signatureMismatch`. -/
def signatureMismatch (ifaceT objT : FuncType) : Bool :=
  if ifaceT.NumOut ≠ objT.NumOut then true
  else if ifaceT.NumIn + 1 ≠ objT.NumIn then true
  else if outLoop ifaceT objT ifaceT.NumOut 0 then true
  else inLoop ifaceT objT ifaceT.NumIn 0

/-- The loop over the interface's methods, threading the slice `missing`. -/
def methodLoop (objType : RType) : List Method → List String → List String
  | [], missing => missing
  | ifaceMethod :: rest, missing =>
    match objType.MethodByName ifaceMethod.Name with
    | none =>
      methodLoop objType rest
        (missing ++ ["Missing: \"" ++ ifaceMethod.Name ++ "\" " ++ ifaceMethod.Typ.String])
    | some objMethod =>
      if signatureMismatch ifaceMethod.Typ objMethod.Typ then
        methodLoop objType rest
          (missing ++ ["Invalid: \"" ++ ifaceMethod.Name ++ "\" " ++ objMethod.Typ.String
            ++ " is not " ++ ifaceMethod.Typ.String])
      else methodLoop objType rest missing

/-- The function `GetMissingMethods(objType, ifaceType)`.  The result is `none` when
`Implements` panics.  The difference `methodCount-len(missing)` is taken in `ℤ`;
both operands are lengths, so the `int` subtraction does not wrap. -/
def GetMissingMethods (objType ifaceType : RType) : Option (GoFloat × List String) :=
  match objType.Implements ifaceType with
  | none => none
  | some true => some (GoFloat.num false 1, [])
  | some false =>
    let methodCount : ℕ := ifaceType.NumMethod
    let missing := methodLoop objType ifaceType.visibleMethods []
    some (fdiv binary32 (ofInt binary32 ((methodCount : ℤ) - (missing.length : ℤ)))
      (ofInt binary32 (methodCount : ℤ)), missing)

/-! ## Interface values as seen by the numeric coercions -/

/-- The dynamic type of an interface value: its kind, and whether it is a defined
type (introduced by a type declaration such as `type Celsius float64`) rather
than the predeclared or literal type of that kind.  The type assertion `v.(int)`
succeeds only on the predeclared type `int` itself. -/
structure DynType where
  kind : Kind
  defined : Bool
deriving DecidableEq, Repr

/-- What an interface value holds: an integer, a floating-point number, or
something that is not a number. -/
inductive Data where
  | int (n : ℤ)
  | float (f : GoFloat)
  | other
deriving DecidableEq, Repr

/-- A value of type `interface{}`: the nil interface, or a dynamic type with data. -/
inductive Iface where
  | nil
  | val (typ : DynType) (data : Data)
deriving DecidableEq, Repr

/-- The expression `reflect.TypeOf(v).Kind()`; it panics on the nil interface,
for which `reflect.TypeOf` returns a nil `Type`. -/
def kindOf : Iface → Option Kind
  | Iface.nil => none
  | Iface.val t _ => some t.kind

/-- The type assertion `v.(T)` for the predeclared integer type `T` of kind `k`; it
panics when the dynamic type of `v` is not `T`. -/
def assertInt (k : Kind) : Iface → Option ℤ
  | Iface.val t (Data.int n) => if t.kind = k ∧ t.defined = false then some n else none
  | _ => none

/-- The type assertion `v.(T)` for the predeclared floating-point type `T` of kind `k`. -/
def assertFloat (k : Kind) : Iface → Option GoFloat
  | Iface.val t (Data.float f) => if t.kind = k ∧ t.defined = false then some f else none
  | _ => none

/-- The conversion `int64(n)` of an integer: the value modulo `2^64`, read as signed. -/
def toInt64 (n : ℤ) : ℤ := (n + 2 ^ 63) % 2 ^ 64 - 2 ^ 63

/-- The conversion `uint64(n)` of an integer: the value modulo `2^64`. -/
def toUint64 (n : ℤ) : ℤ := n % 2 ^ 64

/-- The conversion `int64(f)` of a floating-point number: the fraction is discarded.
When the truncated value is not an `int64` (also for infinities and NaN) Go leaves
the result to the implementation, which is the parameter `impl`. -/
def floatToInt64 (impl : GoFloat → ℤ) (f : GoFloat) : ℤ :=
  match f with
  | GoFloat.num s m =>
    let t : ℤ := if s then -⌊m⌋ else ⌊m⌋
    if -(2 ^ 63) ≤ t ∧ t < 2 ^ 63 then t else toInt64 (impl f)
  | _ => toInt64 (impl f)

/-- The values of the integer type of kind `k`, with `int` and `uint` of `intBits` bits;
no integer for the other kinds. -/
def inRange (intBits : ℕ) (k : Kind) (n : ℤ) : Prop :=
  match k with
  | Kind.Int => -(2 ^ (intBits - 1)) ≤ n ∧ n < 2 ^ (intBits - 1)
  | Kind.Int8 => -(2 ^ 7) ≤ n ∧ n < 2 ^ 7
  | Kind.Int16 => -(2 ^ 15) ≤ n ∧ n < 2 ^ 15
  | Kind.Int32 => -(2 ^ 31) ≤ n ∧ n < 2 ^ 31
  | Kind.Int64 => -(2 ^ 63) ≤ n ∧ n < 2 ^ 63
  | Kind.Uint => 0 ≤ n ∧ n < 2 ^ intBits
  | Kind.Uint8 => 0 ≤ n ∧ n < 2 ^ 8
  | Kind.Uint16 => 0 ≤ n ∧ n < 2 ^ 16
  | Kind.Uint32 => 0 ≤ n ∧ n < 2 ^ 32
  | Kind.Uint64 => 0 ≤ n ∧ n < 2 ^ 64
  | _ => False

/-- The signed integer kinds `int`, `int8`, `int16`, `int32`, `int64`. -/
def isSignedKind (k : Kind) : Bool :=
  k = Kind.Int ∨ k = Kind.Int8 ∨ k = Kind.Int16 ∨ k = Kind.Int32 ∨ k = Kind.Int64

/-- The unsigned integer kinds `uint`, `uint8`, `uint16`, `uint32`, `uint64`. -/
def isUnsignedKind (k : Kind) : Bool :=
  k = Kind.Uint ∨ k = Kind.Uint8 ∨ k = Kind.Uint16 ∨ k = Kind.Uint32 ∨ k = Kind.Uint64

/-- The floating-point kinds `float32`, `float64`. -/
def isFloatKind (k : Kind) : Bool := k = Kind.Float32 ∨ k = Kind.Float64

/-- The twelve kinds the coercions know as number types. -/
def isNumberKind (k : Kind) : Bool := isSignedKind k || isUnsignedKind k || isFloatKind k

/-- A well-formed interface value with the predeclared type of a number kind: the data
are an integer of the type's range, or a floating-point number. -/
def Iface.holdsBuiltin (intBits : ℕ) (k : Kind) : Iface → Prop
  | Iface.val t (Data.int n) =>
    t.kind = k ∧ t.defined = false ∧ (isSignedKind k ∨ isUnsignedKind k) ∧ inRange intBits k n
  | Iface.val t (Data.float _) => t.kind = k ∧ t.defined = false ∧ isFloatKind k
  | _ => False

/-! ## `Int64`, `Uint64`, `Float32`, `Float64` -/

/-- The function `Int64(v)`.  The result is `none` when the kind lookup or a type assertion
panics.  The `fmt.Printf` before the last `return` writes to standard output only. -/
def Int64 (impl : GoFloat → ℤ) (v : Iface) : Option (ℤ × Bool) :=
  match kindOf v with
  | none => none
  | some Kind.Int => (assertInt Kind.Int v).map (fun n => (toInt64 n, true))
  | some Kind.Int8 => (assertInt Kind.Int8 v).map (fun n => (toInt64 n, true))
  | some Kind.Int16 => (assertInt Kind.Int16 v).map (fun n => (toInt64 n, true))
  | some Kind.Int32 => (assertInt Kind.Int32 v).map (fun n => (toInt64 n, true))
  | some Kind.Int64 => (assertInt Kind.Int64 v).map (fun n => (n, true))
  | some Kind.Float32 => (assertFloat Kind.Float32 v).map (fun f => (floatToInt64 impl f, true))
  | some Kind.Float64 => (assertFloat Kind.Float64 v).map (fun f => (floatToInt64 impl f, true))
  | some _ => some (0, false)

/-- The function `Uint64(v)`. -/
def Uint64 (v : Iface) : Option (ℤ × Bool) :=
  match kindOf v with
  | none => none
  | some Kind.Uint => (assertInt Kind.Uint v).map (fun n => (toUint64 n, true))
  | some Kind.Uint8 => (assertInt Kind.Uint8 v).map (fun n => (toUint64 n, true))
  | some Kind.Uint16 => (assertInt Kind.Uint16 v).map (fun n => (toUint64 n, true))
  | some Kind.Uint32 => (assertInt Kind.Uint32 v).map (fun n => (toUint64 n, true))
  | some Kind.Uint64 => (assertInt Kind.Uint64 v).map (fun n => (n, true))
  | some _ => some (0, false)

/-- The function `Float32(v)`. -/
def Float32 (v : Iface) : Option (GoFloat × Bool) :=
  match kindOf v with
  | none => none
  | some Kind.Int => (assertInt Kind.Int v).map (fun n => (ofInt binary32 n, true))
  | some Kind.Uint => (assertInt Kind.Uint v).map (fun n => (ofInt binary32 n, true))
  | some Kind.Int8 => (assertInt Kind.Int8 v).map (fun n => (ofInt binary32 n, true))
  | some Kind.Uint8 => (assertInt Kind.Uint8 v).map (fun n => (ofInt binary32 n, true))
  | some Kind.Int16 => (assertInt Kind.Int16 v).map (fun n => (ofInt binary32 n, true))
  | some Kind.Uint16 => (assertInt Kind.Uint16 v).map (fun n => (ofInt binary32 n, true))
  | some Kind.Int32 => (assertInt Kind.Int32 v).map (fun n => (ofInt binary32 n, true))
  | some Kind.Uint32 => (assertInt Kind.Uint32 v).map (fun n => (ofInt binary32 n, true))
  | some Kind.Int64 => (assertInt Kind.Int64 v).map (fun n => (ofInt binary32 n, true))
  | some Kind.Uint64 => (assertInt Kind.Uint64 v).map (fun n => (ofInt binary32 n, true))
  | some Kind.Float32 => (assertFloat Kind.Float32 v).map (fun f => (f, true))
  | some Kind.Float64 => (assertFloat Kind.Float64 v).map (fun f => (convert binary32 f, true))
  | some _ => some (GoFloat.num false 0, false)

/-- The function `Float64(v)`. -/
def Float64 (v : Iface) : Option (GoFloat × Bool) :=
  match kindOf v with
  | none => none
  | some Kind.Int => (assertInt Kind.Int v).map (fun n => (ofInt binary64 n, true))
  | some Kind.Uint => (assertInt Kind.Uint v).map (fun n => (ofInt binary64 n, true))
  | some Kind.Int8 => (assertInt Kind.Int8 v).map (fun n => (ofInt binary64 n, true))
  | some Kind.Uint8 => (assertInt Kind.Uint8 v).map (fun n => (ofInt binary64 n, true))
  | some Kind.Int16 => (assertInt Kind.Int16 v).map (fun n => (ofInt binary64 n, true))
  | some Kind.Uint16 => (assertInt Kind.Uint16 v).map (fun n => (ofInt binary64 n, true))
  | some Kind.Int32 => (assertInt Kind.Int32 v).map (fun n => (ofInt binary64 n, true))
  | some Kind.Uint32 => (assertInt Kind.Uint32 v).map (fun n => (ofInt binary64 n, true))
  | some Kind.Int64 => (assertInt Kind.Int64 v).map (fun n => (ofInt binary64 n, true))
  | some Kind.Uint64 => (assertInt Kind.Uint64 v).map (fun n => (ofInt binary64 n, true))
  | some Kind.Float32 => (assertFloat Kind.Float32 v).map (fun f => (convert binary64 f, true))
  | some Kind.Float64 => (assertFloat Kind.Float64 v).map (fun f => (f, true))
  | some _ => some (GoFloat.num false 0, false)

/-! ## `RemovePtrFromType` -/

/-- The identity of a runtime type descriptor. -/
abbrev TypeId := ℕ

/-- The type descriptors of a program as `RemovePtrFromType` reads them: `Kind()` and
`Elem()`, the latter panicking (`none`) on a type without element type.  Descriptors
form a graph: a declaration `type P *P` makes a pointer type its own element. -/
structure TypeTable where
  kind : TypeId → Kind
  elem : TypeId → Option TypeId

/-- The argument `t interface{}`: the nil interface, a `reflect.Type`, or any other
value, of which only the dynamic type matters. -/
inductive Arg where
  | nil
  | type (rt : TypeId)
  | value (typ : TypeId)
deriving DecidableEq, Repr

/-- The outcome of running a loop with a bound on the number of iterations. -/
inductive Run (α : Type) where
  | done (a : α)
  | panic
  | outOfFuel
deriving DecidableEq, Repr

/-- The loop `for v.Kind() == reflect.Ptr { v = v.Elem() }`; every evaluation of the
loop condition takes one unit of fuel. -/
def ptrLoop (tbl : TypeTable) : ℕ → TypeId → Run TypeId
  | 0, _ => Run.outOfFuel
  | fuel + 1, v =>
    if tbl.kind v = Kind.Ptr then
      match tbl.elem v with
      | none => Run.panic
      | some w => ptrLoop tbl fuel w
    else Run.done v

/-- The function `RemovePtrFromType(t)`.  On the nil interface `reflect.TypeOf` returns a
nil `Type` and `v.Kind()` panics. -/
def RemovePtrFromType (tbl : TypeTable) (fuel : ℕ) : Arg → Run TypeId
  | Arg.nil => Run.panic
  | Arg.type rt => ptrLoop tbl fuel rt
  | Arg.value typ => ptrLoop tbl fuel typ

/-- The type `v` is `n` levels of pointer to `T`. -/
def isPtrTower (tbl : TypeTable) : ℕ → TypeId → TypeId → Prop
  | 0, v, T => v = T
  | n + 1, v, T => tbl.kind v = Kind.Ptr ∧ ∃ w, tbl.elem v = some w ∧ isPtrTower tbl n w T

/-! ## Concrete inputs -/

/-- An object type with the method `String() string`. -/
def stringerObj : RType :=
  ⟨⟨100, "main.T"⟩, Kind.Struct, [⟨"String", "", ⟨[], [⟨24, "string"⟩], false⟩⟩]⟩

/-- The interface type `interface { String() string }`. -/
def stringerIface : RType :=
  ⟨⟨101, "fmt.Stringer"⟩, Kind.Interface, [⟨"String", "", ⟨[], [⟨24, "string"⟩], false⟩⟩]⟩

/-- An object type without methods. -/
def emptyObj : RType := ⟨⟨102, "main.U"⟩, Kind.Struct, []⟩

/-- A table with `int` (0), `*int` (1), `**int` (2) and a type `type P *P` (3). -/
def sampleTypes : TypeTable where
  kind := fun i => if i = 0 then Kind.Int else Kind.Ptr
  elem := fun i => if i = 0 then none else if i = 3 then some 3 else some (i - 1)

end treflect

/-! # Package `tos`: tree operations

Of `Copy`, `Chmod`, `Chown`, `Remove` and `GetFileCredentials` only the tests
(`tos/file_test.go`) are at hand, not the sources.  The file system and the operations are
therefore modelled from the specification.
-/

namespace tos

/-- Modelled from the spec: an absolute path, as the list of its components; the path of
`/tmp/tgo_tos` is `["tmp", "tgo_tos"]`. -/
abbrev Path := List String

/-- Modelled from the spec: the error kinds of section 7. -/
inductive Error where
  | NotFound
  | UnknownIdentity
  | PermissionDenied
  | IOFailure
deriving DecidableEq, Repr

/-- Modelled from the spec: the entry kind of a `FileNode` (regular file, directory or
symbolic link), with the bytes of a regular file and the target of a link. -/
inductive Content where
  | file (bytes : List ℕ)
  | dir
  | symlink (target : String)
deriving DecidableEq, Repr

/-- Modelled from the spec: a file system entry with its access metadata: the mode word
(the nine permission bits below the file-type bits), the owner id and the group id. -/
structure Entry where
  content : Content
  mode : ℕ
  uid : ℕ
  gid : ℕ
deriving DecidableEq, Repr

/-- Modelled from the spec: the file system, the entries that exist, each under its
absolute path, in the order of their creation. -/
abbrev FS := List (Path × Entry)

/-- Modelled from the spec: the environment of a call: the failures the host imposes on
the access to a path (`PermissionDenied`, `IOFailure`), the fixed default modes of the
directories and files that `Copy` creates, and the identity that owns what is created. -/
structure Env where
  fault : Path → Option Error
  dirMode : ℕ
  fileMode : ℕ
  uid : ℕ
  gid : ℕ

/-- Modelled from the spec: the entry that exists at a path, if any. -/
def lookup : FS → Path → Option Entry
  | [], _ => none
  | (q, e) :: rest, p => if q = p then some e else lookup rest p

/-- Modelled from the spec: writing an entry at a path: in place when the path exists,
as a new entry otherwise. -/
def store : FS → Path → Entry → FS
  | [], p, e => [(p, e)]
  | (q, x) :: rest, p, e => if q = p then (q, e) :: rest else (q, x) :: store rest p e

/-- Modelled from the spec: `under root p` holds when `p` is `root` or lies beneath it. -/
def under : Path → Path → Bool
  | [], _ => true
  | _ :: _, [] => false
  | a :: root, b :: p => decide (a = b) && under root p

/-- Modelled from the spec: the order of two names in a directory listing: the
lexicographic order of their characters. -/
def codesLt : List ℕ → List ℕ → Bool
  | _, [] => false
  | [], _ :: _ => true
  | a :: s, b :: t => decide (a < b) || (decide (a = b) && codesLt s t)

/-- Modelled from the spec: `nameLt a b` holds when the name `a` is listed before `b`. -/
def nameLt (a b : String) : Bool :=
  codesLt (a.data.map Char.toNat) (b.data.map Char.toNat)

/-- Modelled from the spec: the order of a depth-first traversal that lists the children of
a directory by name: a directory comes before what lies beneath it. -/
def pathLe : Path → Path → Bool
  | [], _ => true
  | _ :: _, [] => false
  | a :: p, b :: q => nameLt a b || (decide (a = b) && pathLe p q)

/-- Modelled from the spec: the PathScanner of section 4.1: the paths of the root and of
every descendant, depth first, a parent before its children. -/
def walkPaths (fs : FS) (root : Path) : List Path :=
  ((fs.map Prod.fst).filter (under root)).insertionSort (fun a b => pathLe a b = true)

/-- Modelled from the spec: the metadata of an entry as reported at visit time; a failure
of the host or a missing entry is surfaced in place of the node. -/
def stat (env : Env) (fs : FS) (p : Path) : Error ⊕ Entry :=
  match env.fault p with
  | some err => Sum.inl err
  | none =>
    match lookup fs p with
    | none => Sum.inl Error.NotFound
    | some x => Sum.inr x

/-- Modelled from the spec: a tree-wide operation: the per-entry step is applied to the
scanned paths in order and the first error ends the operation, what was done before it
staying done.  The second component is `none` on success. -/
def forEach (step : FS → Path → FS × Option Error) : List Path → FS → FS × Option Error
  | [], fs => (fs, none)
  | p :: ps, fs =>
    match step fs p with
    | (fs1, none) => forEach step ps fs1
    | (fs1, some err) => (fs1, some err)

/-- Modelled from the spec: the mode word with its permission portion overwritten by the
permission bits of `m`; the file-type bits are preserved. -/
def setPerm (mode m : ℕ) : ℕ := mode / 512 * 512 + m % 512

/-- Modelled from the spec: the ModeApplier's step on one visited entry. -/
def chmodStep (env : Env) (m : ℕ) (fs : FS) (p : Path) : FS × Option Error :=
  match stat env fs p with
  | Sum.inl err => (fs, some err)
  | Sum.inr x => (store fs p { x with mode := setPerm x.mode m }, none)

/-- Modelled from the spec: `Chmod(root, mode)` of section 4.3, whose source is missing:
`NotFound` when the root does not exist; otherwise the permission bits of every visited
entry, the root included, are set. -/
def Chmod (env : Env) (root : Path) (m : ℕ) (fs : FS) : FS × Option Error :=
  match lookup fs root with
  | none => (fs, some Error.NotFound)
  | some _ => forEach (chmodStep env m) (walkPaths fs root) fs

/-- Modelled from the spec: creation of the directory `pre ++ rest` together with the
missing directories on the way, with the default mode; an existing entry on the way that
is not a directory is an `IOFailure`. -/
def mkdirAllFrom (env : Env) : Path → List String → FS → FS × Option Error
  | _, [], fs => (fs, none)
  | pre, name :: rest, fs =>
    match lookup fs (pre ++ [name]) with
    | none =>
      mkdirAllFrom env (pre ++ [name]) rest
        (store fs (pre ++ [name]) ⟨Content.dir, env.dirMode, env.uid, env.gid⟩)
    | some x =>
      if x.content = Content.dir then mkdirAllFrom env (pre ++ [name]) rest fs
      else (fs, some Error.IOFailure)

/-- Modelled from the spec: creation of a directory and of its missing ancestors. -/
def mkdirAll (env : Env) (p : Path) (fs : FS) : FS × Option Error :=
  mkdirAllFrom env [] p fs

/-- Modelled from the spec: the destination entry that duplicates a source entry which is
not a directory: the bytes of a file verbatim, the target of a link verbatim. -/
def duplicate (env : Env) (x : Entry) : Entry :=
  ⟨x.content, env.fileMode, env.uid, env.gid⟩

/-- Modelled from the spec: the CopyEngine's step on one visited entry of the source: a
directory is created at the same relative path under the destination; a file or a link is
duplicated there, after the directories leading to it.  A destination path that is
occupied by a directory, or by anything when a link is to be made, is an `IOFailure`. -/
def copyStep (env : Env) (dest src : Path) (fs : FS) (p : Path) : FS × Option Error :=
  match stat env fs p with
  | Sum.inl err => (fs, some err)
  | Sum.inr x =>
    match env.fault (dest ++ p.drop src.length) with
    | some err => (fs, some err)
    | none =>
      match x.content with
      | Content.dir => mkdirAll env (dest ++ p.drop src.length) fs
      | _ =>
        match mkdirAll env (dest ++ p.drop src.length).dropLast fs with
        | (fs1, some err) => (fs1, some err)
        | (fs1, none) =>
          match lookup fs1 (dest ++ p.drop src.length) with
          | none => (store fs1 (dest ++ p.drop src.length) (duplicate env x), none)
          | some y =>
            match x.content, y.content with
            | Content.file _, Content.file _ =>
              (store fs1 (dest ++ p.drop src.length) { y with content := x.content }, none)
            | _, _ => (fs1, some Error.IOFailure)

/-- Modelled from the spec: `Copy(destinationRoot, sourceRoot)` of section 4.2, whose source
is missing: `NotFound` when the source root does not exist; otherwise every scanned entry
of the source is recreated under the destination. -/
def Copy (env : Env) (dest src : Path) (fs : FS) : FS × Option Error :=
  match lookup fs src with
  | none => (fs, some Error.NotFound)
  | some _ => forEach (copyStep env dest src) (walkPaths fs src) fs

/-- Modelled from the spec: a destination is fresh when nothing exists at it or beneath
it. -/
def fresh (fs : FS) (dest : Path) : Bool :=
  fs.all (fun pe => !under dest pe.1)

/-- Modelled from the spec: deletion of the entry at a path. -/
def erase : FS → Path → FS
  | [], _ => []
  | (q, x) :: rest, p => if q = p then erase rest p else (q, x) :: erase rest p

/-- Modelled from the spec: the TreeRemover's step on one entry: the entry is deleted,
whatever its permission bits, unless the host blocks the deletion. -/
def removeStep (env : Env) (fs : FS) (p : Path) : FS × Option Error :=
  match env.fault p with
  | some err => (fs, some err)
  | none => (erase fs p, none)

/-- Modelled from the spec: `Remove(root)` of section 4.6, whose source is missing: a no-op
success when the root does not exist; otherwise the root and every entry beneath it are
deleted, bottom-up, and a blocked deletion ends the call with what was deleted staying
deleted. -/
def Remove (env : Env) (root : Path) (fs : FS) : FS × Option Error :=
  match lookup fs root with
  | none => (fs, none)
  | some _ => forEach (removeStep env) (walkPaths fs root).reverse fs

/-- Modelled from the spec: the identity database of the host: the user names and the
group names with their numeric ids, in the order in which the host lists them. -/
structure Identities where
  users : List (String × ℕ)
  groups : List (String × ℕ)
deriving DecidableEq, Repr

/-- Modelled from the spec: the forward direction of the CredentialResolver: the numeric id
of a name, if the name is listed. -/
def idOf : List (String × ℕ) → String → Option ℕ
  | [], _ => none
  | (n, i) :: rest, name => if n = name then some i else idOf rest name

/-- Modelled from the spec: the resolution of a numeric id back to a symbolic name: the
first name listed with that id, if any. -/
def nameOf : List (String × ℕ) → ℕ → Option String
  | [], _ => none
  | (n, i) :: rest, id => if i = id then some n else nameOf rest id

/-- Modelled from the spec: the OwnerApplier's step on one visited entry: the resolved pair
of ids is applied.  Changing the ownership to an identity other than the caller's own
requires elevated privilege, which the caller with user id 0 (`root`) has; without it the
step is a `PermissionDenied`. -/
def chownStep (env : Env) (uid gid : ℕ) (fs : FS) (p : Path) : FS × Option Error :=
  match stat env fs p with
  | Sum.inl err => (fs, some err)
  | Sum.inr x =>
    if env.uid = 0 ∨ (uid = env.uid ∧ gid = env.gid) then
      (store fs p { x with uid := uid, gid := gid }, none)
    else (fs, some Error.PermissionDenied)

/-- Modelled from the spec: `Chown(root, username, groupname)` of section 4.4, whose source
is missing: both names are resolved once, before any mutation, and an unresolvable name is
an `UnknownIdentity`; then the resolved ids are applied to every visited entry, the root
included. -/
def Chown (env : Env) (db : Identities) (root : Path) (username groupname : String)
    (fs : FS) : FS × Option Error :=
  match idOf db.users username, idOf db.groups groupname with
  | some uid, some gid =>
    match lookup fs root with
    | none => (fs, some Error.NotFound)
    | some _ => forEach (chownStep env uid gid) (walkPaths fs root) fs
  | _, _ => (fs, some Error.UnknownIdentity)

/-- Modelled from the spec: `GetFileCredentials(path)` of section 4.5, whose source is
missing: the path is stat'ed (`NotFound` when it does not exist) and its numeric owner and
group are resolved back to names; an id without a name is an `UnknownIdentity`. -/
def GetFileCredentials (env : Env) (db : Identities) (fs : FS) (path : Path) :
    Error ⊕ (String × String) :=
  match stat env fs path with
  | Sum.inl err => Sum.inl err
  | Sum.inr x =>
    match nameOf db.users x.uid, nameOf db.groups x.gid with
    | some u, some g => Sum.inr (u, g)
    | _, _ => Sum.inl Error.UnknownIdentity

/-! ## The tree of the tests -/

/-- An environment without failures. -/
def quietEnv : Env := ⟨fun _ => none, 0o777, 0o644, 0, 0⟩

/-- A directory as `os.MkdirAll(_, 0777)` leaves it under the usual umask. -/
def testDir : Entry := ⟨Content.dir, 0o755, 0, 0⟩

/-- A file as `os.Create` leaves it under the usual umask, with the given bytes. -/
def testFile (bytes : List ℕ) : Entry := ⟨Content.file bytes, 0o644, 0, 0⟩

/-- The tree that `createTosTestStructure(folder, _)` builds under `/tmp/tgo_tos`; the
files hold `test1`, `test2` and `test3`. -/
def testTree (folder : String) : FS :=
  [ (["tmp"], testDir),
    (["tmp", "tgo_tos"], testDir),
    (["tmp", "tgo_tos", folder], testDir),
    (["tmp", "tgo_tos", folder, "test1"], testDir),
    (["tmp", "tgo_tos", folder, "test1", "test2a"], testDir),
    (["tmp", "tgo_tos", folder, "test1", "test2b"], testDir),
    (["tmp", "tgo_tos", folder, "test3"], testDir),
    (["tmp", "tgo_tos", folder, "1.test"], testFile [116, 101, 115, 116, 49]),
    (["tmp", "tgo_tos", folder, "test1", "2.test"], testFile [116, 101, 115, 116, 50]),
    (["tmp", "tgo_tos", folder, "test1", "test2a", "3.test"],
      testFile [116, 101, 115, 116, 51]) ]

/-- The root of the tree of the tests: `/tmp/tgo_tos/<folder>`. -/
def testRoot (folder : String) : Path := ["tmp", "tgo_tos", folder]

/-- An environment in which the access to `/tmp/tgo_tos/chmod/test3` is denied. -/
def deniedEnv : Env :=
  ⟨fun p => if p = ["tmp", "tgo_tos", "chmod", "test3"] then some Error.PermissionDenied else none,
    0o777, 0o644, 1000, 1000⟩

/-- An identity database with the user `nobody` and the group `nobody` of `TestChown`. -/
def testIdentities : Identities :=
  ⟨[("root", 0), ("daemon", 1), ("nobody", 65534)], [("root", 0), ("nobody", 65534)]⟩

/-- An identity database in which the user id 0 is listed under two names, `root` first. -/
def aliasIdentities : Identities :=
  ⟨[("root", 0), ("toor", 0), ("nobody", 65534)], [("wheel", 0), ("nobody", 65534)]⟩

end tos

/-! # Theorems: package `treflect` -/

namespace treflect

theorem roundHalfEven_intCast (n : ℤ) : roundHalfEven (n : ℚ) = n := by
  simp [roundHalfEven]

theorem floor_le_roundHalfEven (x : ℚ) : ⌊x⌋ ≤ roundHalfEven x := by
  unfold roundHalfEven
  split_ifs <;> omega

theorem roundHalfEven_le_floor_succ (x : ℚ) : roundHalfEven x ≤ ⌊x⌋ + 1 := by
  unfold roundHalfEven
  split_ifs <;> omega

theorem roundHalfEven_mono {x y : ℚ} (h : x ≤ y) : roundHalfEven x ≤ roundHalfEven y := by
  have hf : ⌊x⌋ ≤ ⌊y⌋ := Int.floor_mono h
  rcases hf.lt_or_eq with hlt | heq
  · calc roundHalfEven x ≤ ⌊x⌋ + 1 := roundHalfEven_le_floor_succ x
      _ ≤ ⌊y⌋ := hlt
      _ ≤ roundHalfEven y := floor_le_roundHalfEven y
  · have hxy : x - ⌊x⌋ ≤ y - ⌊y⌋ := by rw [heq]; linarith
    unfold roundHalfEven
    rw [heq] at *
    split_ifs <;> first | omega | (exfalso; linarith)

theorem le_roundHalfEven {z : ℤ} {x : ℚ} (h : (z : ℚ) ≤ x) : z ≤ roundHalfEven x := by
  have := roundHalfEven_mono h
  rwa [roundHalfEven_intCast] at this

theorem roundHalfEven_le {z : ℤ} {x : ℚ} (h : x ≤ (z : ℚ)) : roundHalfEven x ≤ z := by
  have := roundHalfEven_mono h
  rwa [roundHalfEven_intCast] at this

theorem ulp_pos (fmt : FloatFormat) (x : ℚ) : 0 < ulp fmt x := by
  unfold ulp; positivity


/-- The exponent of the binade used to round `x`. -/
theorem ulp_eq (fmt : FloatFormat) (x : ℚ) :
    ulp fmt x = (2 : ℚ) ^ (max (Int.log 2 x) fmt.emin - ((fmt.prec : ℤ) - 1)) := rfl

theorem roundMag_nonneg (fmt : FloatFormat) {x : ℚ} (hx : 0 ≤ x) : 0 ≤ roundMag fmt x := by
  unfold roundMag
  have hu := ulp_pos fmt x
  have h0 : ((0 : ℤ) : ℚ) ≤ x / ulp fmt x := by
    simpa using div_nonneg hx hu.le
  have := le_roundHalfEven h0
  have h1 : (0 : ℚ) ≤ (roundHalfEven (x / ulp fmt x) : ℚ) := by exact_mod_cast this
  positivity

theorem roundMag_zero (fmt : FloatFormat) : roundMag fmt 0 = 0 := by
  unfold roundMag
  have : roundHalfEven (0 / ulp fmt 0) = 0 := by
    rw [zero_div]; exact_mod_cast roundHalfEven_intCast 0
  rw [this]; simp

theorem roundMag_le_zpow (fmt : FloatFormat) (x : ℚ) :
    roundMag fmt x ≤ (2 : ℚ) ^ (max (Int.log 2 x) fmt.emin + 1) := by
  set E := max (Int.log 2 x) fmt.emin with hE
  have hu := ulp_pos fmt x
  have hx : x < (2 : ℚ) ^ (Int.log 2 x + 1) := by
    exact_mod_cast Int.lt_zpow_succ_log_self (R := ℚ) (b := 2) (by norm_num) x
  have hx2 : x ≤ (2 : ℚ) ^ (E + 1) :=
    hx.le.trans (zpow_le_zpow_right₀ (by norm_num) (by simp [hE]))
  have hsplit : (2 : ℚ) ^ (E + 1) = ((2 ^ fmt.prec : ℤ) : ℚ) * ulp fmt x := by
    rw [ulp_eq, ← hE]
    push_cast
    rw [← zpow_natCast, ← zpow_add₀ (by norm_num : (2 : ℚ) ≠ 0)]
    congr 1; ring
  have hq : x / ulp fmt x ≤ ((2 ^ fmt.prec : ℤ) : ℚ) := by
    rw [div_le_iff₀ hu, ← hsplit]; exact hx2
  have := roundHalfEven_le hq
  have h1 : (roundHalfEven (x / ulp fmt x) : ℚ) ≤ ((2 ^ fmt.prec : ℤ) : ℚ) := by
    exact_mod_cast this
  unfold roundMag
  rw [hsplit]
  exact mul_le_mul_of_nonneg_right h1 hu.le

theorem zpow_le_roundMag (fmt : FloatFormat) (hp : 1 ≤ fmt.prec) {x : ℚ} (hx : 0 < x)
    (he : fmt.emin ≤ Int.log 2 x) : (2 : ℚ) ^ (Int.log 2 x) ≤ roundMag fmt x := by
  have hu := ulp_pos fmt x
  have hmax : max (Int.log 2 x) fmt.emin = Int.log 2 x := max_eq_left he
  have hlow : (2 : ℚ) ^ (Int.log 2 x) ≤ x := by
    exact_mod_cast Int.zpow_log_le_self (R := ℚ) (b := 2) (by norm_num) hx
  have hsplit : (2 : ℚ) ^ (Int.log 2 x) = ((2 ^ (fmt.prec - 1) : ℤ) : ℚ) * ulp fmt x := by
    rw [ulp_eq, hmax]
    push_cast
    rw [← zpow_natCast, ← zpow_add₀ (by norm_num : (2 : ℚ) ≠ 0)]
    congr 1
    rw [Nat.cast_sub hp]; push_cast; ring
  have hq : ((2 ^ (fmt.prec - 1) : ℤ) : ℚ) ≤ x / ulp fmt x := by
    rw [le_div_iff₀ hu, ← hsplit]; exact hlow
  have := le_roundHalfEven hq
  have h1 : ((2 ^ (fmt.prec - 1) : ℤ) : ℚ) ≤ (roundHalfEven (x / ulp fmt x) : ℚ) := by
    exact_mod_cast this
  unfold roundMag
  rw [hsplit]
  exact mul_le_mul_of_nonneg_right h1 hu.le

theorem roundMag_mono (fmt : FloatFormat) (hp : 1 ≤ fmt.prec) {x y : ℚ} (hx : 0 ≤ x)
    (hxy : x ≤ y) : roundMag fmt x ≤ roundMag fmt y := by
  rcases hx.eq_or_lt with h0 | hpos
  · rw [← h0, roundMag_zero]; exact roundMag_nonneg fmt (hx.trans hxy)
  have hlog : Int.log 2 x ≤ Int.log 2 y := Int.log_mono_right hpos hxy
  have hE : max (Int.log 2 x) fmt.emin ≤ max (Int.log 2 y) fmt.emin :=
    max_le_max hlog le_rfl
  rcases hE.eq_or_lt with heq | hlt
  · have hu : ulp fmt x = ulp fmt y := by rw [ulp_eq, ulp_eq, heq]
    unfold roundMag
    rw [hu]
    have hq : x / ulp fmt y ≤ y / ulp fmt y :=
      div_le_div_of_nonneg_right hxy (ulp_pos fmt y).le
    have := roundHalfEven_mono hq
    have h1 : (roundHalfEven (x / ulp fmt y) : ℚ) ≤ (roundHalfEven (y / ulp fmt y) : ℚ) := by
      exact_mod_cast this
    exact mul_le_mul_of_nonneg_right h1 (ulp_pos fmt y).le
  · have hmin : fmt.emin < max (Int.log 2 y) fmt.emin :=
      lt_of_le_of_lt (le_max_right _ _) hlt
    have hy : fmt.emin ≤ Int.log 2 y := by
      rcases le_total (Int.log 2 y) fmt.emin with h | h
      · rw [max_eq_right h] at hmin; exact absurd hmin (lt_irrefl _)
      · exact h
    have hmaxy : max (Int.log 2 y) fmt.emin = Int.log 2 y := max_eq_left hy
    calc roundMag fmt x ≤ (2 : ℚ) ^ (max (Int.log 2 x) fmt.emin + 1) := roundMag_le_zpow fmt x
      _ ≤ (2 : ℚ) ^ (Int.log 2 y) :=
          zpow_le_zpow_right₀ (by norm_num) (by rw [hmaxy] at hlt; omega)
      _ ≤ roundMag fmt y := zpow_le_roundMag fmt hp (hpos.trans_le hxy) hy


theorem roundMag_two_zpow (fmt : FloatFormat) (hp : 1 ≤ fmt.prec) {k : ℤ} (hk : fmt.emin ≤ k) :
    roundMag fmt ((2 : ℚ) ^ k) = (2 : ℚ) ^ k := by
  have hlog : Int.log 2 ((2 : ℚ) ^ k) = k := by
    exact_mod_cast Int.log_zpow (R := ℚ) (b := 2) (by norm_num) k
  have hu : ulp fmt ((2 : ℚ) ^ k) = (2 : ℚ) ^ (k - ((fmt.prec : ℤ) - 1)) := by
    rw [ulp_eq, hlog, max_eq_left hk]
  have hq : (2 : ℚ) ^ k / ulp fmt ((2 : ℚ) ^ k) = ((2 ^ (fmt.prec - 1) : ℤ) : ℚ) := by
    rw [hu, ← zpow_sub₀ (by norm_num : (2 : ℚ) ≠ 0)]
    push_cast
    rw [← zpow_natCast, Nat.cast_sub hp]
    congr 1; push_cast; ring
  unfold roundMag
  rw [hq, roundHalfEven_intCast, hu]
  push_cast
  rw [← zpow_natCast, ← zpow_add₀ (by norm_num : (2 : ℚ) ≠ 0), Nat.cast_sub hp]
  congr 1; push_cast; ring

theorem roundMag_binary32_one : roundMag binary32 1 = 1 := by
  have := roundMag_two_zpow binary32 (by decide) (k := 0) (by decide)
  simpa using this

/-- Conversion of an `int` that is not negative: finite, not negative, monotone. -/
theorem ofInt_binary32_nonneg {n : ℤ} (h0 : 0 ≤ n) (h : n < 2 ^ 63) :
    ofInt binary32 n = GoFloat.num false (roundMag binary32 (n : ℚ)) := by
  have hn : ((n : ℤ) : ℚ) ≤ (2 : ℚ) ^ (63 : ℤ) := by
    have h2 : ((n : ℤ) : ℚ) ≤ ((2 ^ 63 : ℤ) : ℚ) := by exact_mod_cast h.le
    rw [show (2 : ℚ) ^ (63 : ℤ) = ((2 ^ 63 : ℤ) : ℚ) by norm_num]
    exact h2
  have hr : roundMag binary32 (n : ℚ) ≤ (2 : ℚ) ^ (63 : ℤ) := by
    have := roundMag_mono binary32 (by decide) (by exact_mod_cast h0) hn
    rwa [roundMag_two_zpow binary32 (by decide) (by decide)] at this
  have hlt : ¬ (2 : ℚ) ^ (binary32.emax + 1) ≤ roundMag binary32 (n : ℚ) := by
    have : (2 : ℚ) ^ (63 : ℤ) < (2 : ℚ) ^ (binary32.emax + 1) := by
      simp only [binary32]; norm_num
    intro hc; linarith
  unfold ofInt roundTo
  rw [abs_of_nonneg h0, if_neg hlt]
  simp [not_lt.mpr h0]

/-- The quotient `float32(m) / float32(n)` for `0 ≤ m ≤ n`, `0 < n`: a finite
number between 0 and 1. -/
theorem coverage_quotient {m n : ℤ} (h0 : 0 ≤ m) (hmn : m ≤ n) (hn0 : 0 < n) (hn : n < 2 ^ 63) :
    ∃ c : ℚ, fdiv binary32 (ofInt binary32 m) (ofInt binary32 n) = GoFloat.num false c ∧
      0 ≤ c ∧ c ≤ 1 := by
  rw [ofInt_binary32_nonneg h0 (lt_of_le_of_lt hmn hn), ofInt_binary32_nonneg hn0.le hn]
  set A := roundMag binary32 (m : ℚ) with hA
  set B := roundMag binary32 (n : ℚ) with hB
  have hA0 : 0 ≤ A := roundMag_nonneg _ (by exact_mod_cast h0)
  have hAB : A ≤ B := roundMag_mono _ (by decide) (by exact_mod_cast h0) (by exact_mod_cast hmn)
  have hB1 : 1 ≤ B := by
    have h1 : (1 : ℚ) ≤ (n : ℚ) := by exact_mod_cast hn0
    have := roundMag_mono binary32 (by decide) zero_le_one h1
    rwa [roundMag_binary32_one] at this
  have hBpos : 0 < B := lt_of_lt_of_le zero_lt_one hB1
  have hq0 : 0 ≤ A / B := div_nonneg hA0 hBpos.le
  have hq1 : A / B ≤ 1 := (div_le_one hBpos).mpr hAB
  have hc1 : roundMag binary32 (A / B) ≤ 1 := by
    have := roundMag_mono binary32 (by decide) hq0 hq1
    rwa [roundMag_binary32_one] at this
  have hlt : ¬ (2 : ℚ) ^ (binary32.emax + 1) ≤ roundMag binary32 (A / B) := by
    have : (1 : ℚ) < (2 : ℚ) ^ (binary32.emax + 1) := by
      simp only [binary32]; norm_num
    intro hc; linarith
  refine ⟨roundMag binary32 (A / B), ?_, roundMag_nonneg _ hq0, hc1⟩
  simp only [fdiv, roundTo, if_neg hBpos.ne', if_neg hlt, Bool.xor_false]

theorem GetMissingMethods_implemented_aux (objType ifaceType : RType)
    (h : objType.Implements ifaceType = some true) :
    GetMissingMethods objType ifaceType = some (GoFloat.num false 1, []) := by
  simp [GetMissingMethods, h]

theorem implementsWalk_nil (vs : List Method) : implementsWalk [] vs = true := by
  cases vs <;> rfl

theorem methodLoop_length_le (objType : RType) (ms : List Method) (missing : List String) :
    (methodLoop objType ms missing).length ≤ missing.length + ms.length := by
  induction ms generalizing missing with
  | nil => simp [methodLoop]
  | cons m rest ih =>
    unfold methodLoop
    split
    · refine (ih _).trans ?_; simp; omega
    · split
      · refine (ih _).trans ?_; simp; omega
      · refine (ih _).trans ?_; simp

/-! ## Claims about `GetMissingMethods` -/

/-- C1: when the object type implements the interface type, `GetMissingMethods` returns the
coverage 1 and an empty list of messages. -/
theorem GetMissingMethods_implemented (objType ifaceType : RType)
    (h : objType.Implements ifaceType = some true) :
    GetMissingMethods objType ifaceType = some (GoFloat.num false 1, []) := by
  simp [GetMissingMethods, h]

theorem GetMissingMethods_implemented_witness :
    stringerObj.Implements stringerIface = some true ∧
      GetMissingMethods stringerObj stringerIface = some (GoFloat.num false 1, []) :=
  ⟨by decide, GetMissingMethods_implemented stringerObj stringerIface (by decide)⟩

/-- C2: for every object type and every interface type (whose method count is an `int`),
`GetMissingMethods` returns a finite coverage between 0 and 1; the number of messages does
not exceed the method count; the division is reached only with a method count that is not
zero, because an interface type without methods is implemented and returns early. -/
theorem GetMissingMethods_coverage_bounds (objType ifaceType : RType)
    (hI : ifaceType.kind = Kind.Interface) (hN : ifaceType.NumMethod < 2 ^ 63) :
    (∃ (c : ℚ) (msgs : List String),
        GetMissingMethods objType ifaceType = some (GoFloat.num false c, msgs) ∧
        0 ≤ c ∧ c ≤ 1 ∧ msgs.length ≤ ifaceType.NumMethod) ∧
      (objType.Implements ifaceType = some false → ifaceType.NumMethod ≠ 0) ∧
      (ifaceType.NumMethod = 0 →
        GetMissingMethods objType ifaceType = some (GoFloat.num false 1, [])) := by
  have hvis : ifaceType.visibleMethods = ifaceType.methods := by
    simp [RType.visibleMethods, hI]
  have hnum : ifaceType.NumMethod = ifaceType.methods.length := by
    simp [RType.NumMethod, hvis]
  have himpl : objType.Implements ifaceType
      = some (implementsWalk ifaceType.methods objType.methods) := by
    simp [RType.Implements, hI]
  have hzero : ifaceType.NumMethod = 0 → objType.Implements ifaceType = some true := by
    intro h0
    have : ifaceType.methods = [] := List.length_eq_zero.mp (hnum ▸ h0)
    rw [himpl, this, implementsWalk_nil]
  refine ⟨?_, ?_, ?_⟩
  · cases hw : implementsWalk ifaceType.methods objType.methods with
    | true =>
      refine ⟨1, [], ?_, zero_le_one, le_refl _, Nat.zero_le _⟩
      exact GetMissingMethods_implemented_aux objType ifaceType (by rw [himpl, hw])
    | false =>
      have hne : ifaceType.NumMethod ≠ 0 := by
        intro h0
        have := hzero h0
        rw [himpl, hw] at this
        exact absurd this (by decide)
      have hlen : (methodLoop objType ifaceType.visibleMethods []).length
          ≤ ifaceType.NumMethod := by
        have := methodLoop_length_le objType ifaceType.visibleMethods []
        simpa [RType.NumMethod] using this
      obtain ⟨c, hc, hc0, hc1⟩ := coverage_quotient
        (m := (ifaceType.NumMethod : ℤ) - ((methodLoop objType ifaceType.visibleMethods []).length : ℤ))
        (n := (ifaceType.NumMethod : ℤ)) (by omega) (by omega) (by omega)
        (by exact_mod_cast hN)
      refine ⟨c, methodLoop objType ifaceType.visibleMethods [], ?_, hc0, hc1, hlen⟩
      simp only [GetMissingMethods, himpl, hw, hc]
  · intro hf h0
    have := hzero h0
    rw [hf] at this
    exact absurd this (by decide)
  · intro h0
    exact GetMissingMethods_implemented_aux objType ifaceType (hzero h0)

theorem GetMissingMethods_coverage_bounds_witness :
    stringerIface.kind = Kind.Interface ∧ stringerIface.NumMethod < 2 ^ 63 ∧
    ((∃ (c : ℚ) (msgs : List String),
        GetMissingMethods emptyObj stringerIface = some (GoFloat.num false c, msgs) ∧
        0 ≤ c ∧ c ≤ 1 ∧ msgs.length ≤ stringerIface.NumMethod) ∧
      (emptyObj.Implements stringerIface = some false → stringerIface.NumMethod ≠ 0) ∧
      (stringerIface.NumMethod = 0 →
        GetMissingMethods emptyObj stringerIface = some (GoFloat.num false 1, []))) :=
  ⟨by decide, by decide,
    GetMissingMethods_coverage_bounds emptyObj stringerIface (by decide) (by decide)⟩

theorem ofInt_binary32_zero : ofInt binary32 0 = GoFloat.num false 0 := by
  have := ofInt_binary32_nonneg (n := 0) le_rfl (by norm_num)
  simpa [roundMag_zero] using this

theorem ofInt_binary32_one : ofInt binary32 1 = GoFloat.num false 1 := by
  have := ofInt_binary32_nonneg (n := 1) zero_le_one (by norm_num)
  simpa [roundMag_binary32_one] using this

/-- A type without methods against `interface { String() string }`: the method is reported
missing and the coverage is 0. -/
theorem GetMissingMethods_all_missing :
    GetMissingMethods emptyObj stringerIface
      = some (GoFloat.num false 0, ["Missing: \"String\" func() string"]) := by
  have h1 : emptyObj.Implements stringerIface = some false := by decide
  have h2 : methodLoop emptyObj stringerIface.visibleMethods []
      = ["Missing: \"String\" func() string"] := by decide
  have h3 : stringerIface.NumMethod = 1 := by decide
  have h4 : fdiv binary32 (GoFloat.num false 0) (GoFloat.num false 1) = GoFloat.num false 0 := by
    simp [fdiv, roundTo, roundMag_zero, binary32]
    positivity
  simp only [GetMissingMethods, h1, h2, h3]
  simp [ofInt_binary32_zero, ofInt_binary32_one, h4]

/-! ## Claims about the numeric coercions -/

theorem toInt64_of_range {n : ℤ} (h1 : -(2 ^ 63) ≤ n) (h2 : n < 2 ^ 63) : toInt64 n = n := by
  unfold toInt64; omega

theorem toUint64_of_range {n : ℤ} (h1 : 0 ≤ n) (h2 : n < 2 ^ 64) : toUint64 n = n := by
  unfold toUint64; omega

/-- C3: for a value whose dynamic type is one of `int`, `int8`, `int16`, `int32`, `int64`,
`Int64` returns the integer the value holds, unchanged, together with `true`. -/
theorem Int64_signed_value (impl : GoFloat → ℤ) (intBits : ℕ) (k : Kind) (v : Iface)
    (hb : intBits = 32 ∨ intBits = 64) (hk : isSignedKind k = true)
    (hv : v.holdsBuiltin intBits k) :
    ∃ n : ℤ, v = Iface.val ⟨k, false⟩ (Data.int n) ∧ Int64 impl v = some (n, true) := by
  match v, hv with
  | Iface.val ⟨tk, td⟩ (Data.int n), hv =>
    obtain ⟨htk, htd, -, hr⟩ := hv
    simp only at htk htd
    subst htk htd
    refine ⟨n, rfl, ?_⟩
    rcases hb with rfl | rfl <;> cases tk <;> simp [isSignedKind] at hk <;>
      simp [inRange] at hr <;>
      simp [Int64, kindOf, assertInt] <;>
      exact toInt64_of_range (by omega) (by omega)
  | Iface.val ⟨tk, td⟩ (Data.float f), hv =>
    obtain ⟨htk, -, hf⟩ := hv
    simp only at htk
    subst htk
    cases tk <;> simp [isSignedKind] at hk <;> simp [isFloatKind] at hf

theorem Int64_signed_value_witness :
    isSignedKind Kind.Int8 = true ∧
    (Iface.val ⟨Kind.Int8, false⟩ (Data.int (-128))).holdsBuiltin 64 Kind.Int8 ∧
    ∃ n : ℤ, Iface.val ⟨Kind.Int8, false⟩ (Data.int (-128)) = Iface.val ⟨Kind.Int8, false⟩ (Data.int n) ∧
      Int64 (fun _ => 0) (Iface.val ⟨Kind.Int8, false⟩ (Data.int (-128))) = some (n, true) :=
  ⟨by decide, by simp [Iface.holdsBuiltin, isSignedKind, inRange],
    Int64_signed_value (fun _ => 0) 64 Kind.Int8 _ (Or.inr rfl)
      (by decide) (by simp [Iface.holdsBuiltin, isSignedKind, inRange])⟩

/-- C4: for a value whose dynamic type is one of `uint`, `uint8`, `uint16`, `uint32`,
`uint64`, `Uint64` returns the integer the value holds, unchanged, together with `true`. -/
theorem Uint64_unsigned_value (intBits : ℕ) (k : Kind) (v : Iface)
    (hb : intBits = 32 ∨ intBits = 64) (hk : isUnsignedKind k = true)
    (hv : v.holdsBuiltin intBits k) :
    ∃ n : ℤ, v = Iface.val ⟨k, false⟩ (Data.int n) ∧ Uint64 v = some (n, true) := by
  match v, hv with
  | Iface.val ⟨tk, td⟩ (Data.int n), hv =>
    obtain ⟨htk, htd, -, hr⟩ := hv
    simp only at htk htd
    subst htk htd
    refine ⟨n, rfl, ?_⟩
    rcases hb with rfl | rfl <;> cases tk <;> simp [isUnsignedKind] at hk <;>
      simp [inRange] at hr <;>
      simp [Uint64, kindOf, assertInt] <;>
      exact toUint64_of_range (by omega) (by omega)
  | Iface.val ⟨tk, td⟩ (Data.float f), hv =>
    obtain ⟨htk, -, hf⟩ := hv
    simp only at htk
    subst htk
    cases tk <;> simp [isUnsignedKind] at hk <;> simp [isFloatKind] at hf

theorem Uint64_unsigned_value_witness :
    isUnsignedKind Kind.Uint16 = true ∧
    (Iface.val ⟨Kind.Uint16, false⟩ (Data.int 65535)).holdsBuiltin 32 Kind.Uint16 ∧
    ∃ n : ℤ, Iface.val ⟨Kind.Uint16, false⟩ (Data.int 65535) = Iface.val ⟨Kind.Uint16, false⟩ (Data.int n) ∧
      Uint64 (Iface.val ⟨Kind.Uint16, false⟩ (Data.int 65535)) = some (n, true) :=
  ⟨by decide, by simp [Iface.holdsBuiltin, isUnsignedKind, inRange],
    Uint64_unsigned_value 32 Kind.Uint16 _ (Or.inl rfl)
      (by decide) (by simp [Iface.holdsBuiltin, isUnsignedKind, inRange])⟩

/-- C5: for a value whose dynamic type is not a number type (its kind is none of the twelve
number kinds), `Int64` and `Uint64` each return 0 together with `false`. -/
theorem Int64_Uint64_non_number (impl : GoFloat → ℤ) (t : DynType) (d : Data)
    (h : isNumberKind t.kind = false) :
    Int64 impl (Iface.val t d) = some (0, false) ∧ Uint64 (Iface.val t d) = some (0, false) := by
  obtain ⟨k, df⟩ := t
  cases k <;> simp [isNumberKind, isSignedKind, isUnsignedKind, isFloatKind] at h <;>
    simp [Int64, Uint64, kindOf]

theorem Int64_Uint64_non_number_witness :
    isNumberKind (DynType.mk Kind.String false).kind = false ∧
    Int64 (fun _ => 0) (Iface.val ⟨Kind.String, false⟩ Data.other) = some (0, false) ∧
    Uint64 (Iface.val ⟨Kind.String, false⟩ Data.other) = some (0, false) :=
  ⟨by decide, Int64_Uint64_non_number (fun _ => 0) ⟨Kind.String, false⟩ Data.other (by decide)⟩

/-- C6, as stated, fails: `uint` and `int` are built-in numeric types, yet `Int64` returns
`false` on a `uint` and `Uint64` returns `false` on an `int`. -/
theorem Int64_Uint64_flag_counterexample :
    (Iface.val ⟨Kind.Uint, false⟩ (Data.int 1)).holdsBuiltin 64 Kind.Uint ∧
    isNumberKind Kind.Uint = true ∧
    Int64 (fun _ => 0) (Iface.val ⟨Kind.Uint, false⟩ (Data.int 1)) = some (0, false) ∧
    (Iface.val ⟨Kind.Int, false⟩ (Data.int 1)).holdsBuiltin 64 Kind.Int ∧
    isNumberKind Kind.Int = true ∧
    Uint64 (Iface.val ⟨Kind.Int, false⟩ (Data.int 1)) = some (0, false) :=
  ⟨by simp [Iface.holdsBuiltin, isUnsignedKind, inRange], by decide, by decide,
    by simp [Iface.holdsBuiltin, isSignedKind, inRange], by decide, by decide⟩

/-- C6, amended: on a value whose dynamic type is one of the twelve built-in types `int`,
`int8`, `int16`, `int32`, `int64`, `uint`, `uint8`, `uint16`, `uint32`, `uint64`, `float32`,
`float64`, `Int64` returns `true` exactly for `int`, `int8`, `int16`, `int32`, `int64`,
`float32`, `float64`, and `Uint64` returns `true` exactly for `uint`, `uint8`, `uint16`,
`uint32`, `uint64`; where the flag is `false` the number returned is 0.  The types `uintptr`,
`complex64` and `complex128` are not among the twelve. -/
theorem Int64_Uint64_flag (impl : GoFloat → ℤ) (intBits : ℕ) (k : Kind) (v : Iface)
    (hk : isNumberKind k = true) (hv : v.holdsBuiltin intBits k) :
    (∃ n : ℤ, Int64 impl v = some (n, isSignedKind k || isFloatKind k) ∧
      ((isSignedKind k || isFloatKind k) = false → n = 0)) ∧
    (∃ n : ℤ, Uint64 v = some (n, isUnsignedKind k) ∧ (isUnsignedKind k = false → n = 0)) := by
  match v, hv with
  | Iface.val ⟨tk, td⟩ (Data.int n), hv =>
    obtain ⟨htk, htd, hs, -⟩ := hv
    simp only at htk htd
    subst htk htd
    cases tk <;> simp [isSignedKind, isUnsignedKind] at hs <;>
      simp [Int64, Uint64, kindOf, assertInt, isSignedKind, isUnsignedKind, isFloatKind]
  | Iface.val ⟨tk, td⟩ (Data.float f), hv =>
    obtain ⟨htk, htd, hf⟩ := hv
    simp only at htk htd
    subst htk htd
    cases tk <;> simp [isFloatKind] at hf <;>
      simp [Int64, Uint64, kindOf, assertFloat, isSignedKind, isUnsignedKind, isFloatKind]

theorem Int64_Uint64_flag_witness :
    isNumberKind Kind.Float64 = true ∧
    (Iface.val ⟨Kind.Float64, false⟩ (Data.float (GoFloat.num false 2))).holdsBuiltin 64
      Kind.Float64 ∧
    ((∃ n : ℤ, Int64 (fun _ => 0) (Iface.val ⟨Kind.Float64, false⟩ (Data.float (GoFloat.num false 2)))
        = some (n, isSignedKind Kind.Float64 || isFloatKind Kind.Float64) ∧
      ((isSignedKind Kind.Float64 || isFloatKind Kind.Float64) = false → n = 0)) ∧
    (∃ n : ℤ, Uint64 (Iface.val ⟨Kind.Float64, false⟩ (Data.float (GoFloat.num false 2)))
        = some (n, isUnsignedKind Kind.Float64) ∧ (isUnsignedKind Kind.Float64 = false → n = 0))) :=
  ⟨by decide, by simp [Iface.holdsBuiltin, isFloatKind],
    Int64_Uint64_flag (fun _ => 0) 64 Kind.Float64 _ (by decide)
      (by simp [Iface.holdsBuiltin, isFloatKind])⟩

/-- C7, as stated, fails: a value of a defined type `type T int` does not have one of the
twelve built-in numeric types as dynamic type, yet `Float32` and `Float64` do not return
`(0, false)` on it: the type assertion `v.(int)` panics.  So does the kind lookup on the nil
interface. -/
theorem Float32_Float64_flag_counterexample :
    Float32 (Iface.val ⟨Kind.Int, true⟩ (Data.int 5)) = none ∧
    Float64 (Iface.val ⟨Kind.Int, true⟩ (Data.int 5)) = none ∧
    Float32 Iface.nil = none ∧ Float64 Iface.nil = none :=
  ⟨rfl, rfl, rfl, rfl⟩

/-- C7, amended: on a value whose dynamic type is one of the twelve built-in numeric types
`Float32` and `Float64` both return `true`; on a value whose kind is none of the twelve
number kinds both return `(0, false)`; so on these inputs the flag is `true` exactly for the
twelve built-in numeric types, and the two functions succeed on the same inputs. -/
theorem Float32_Float64_flag (intBits : ℕ) (t : DynType) (d : Data)
    (h : isNumberKind t.kind = false ∨ (Iface.val t d).holdsBuiltin intBits t.kind) :
    ∃ f g : GoFloat, Float32 (Iface.val t d) = some (f, isNumberKind t.kind) ∧
      Float64 (Iface.val t d) = some (g, isNumberKind t.kind) ∧
      (isNumberKind t.kind = false → f = GoFloat.num false 0 ∧ g = GoFloat.num false 0) := by
  obtain ⟨tk, td⟩ := t
  rcases h with h | h
  · cases tk <;> simp [isNumberKind, isSignedKind, isUnsignedKind, isFloatKind] at h <;>
      simp [Float32, Float64, kindOf, isNumberKind, isSignedKind, isUnsignedKind, isFloatKind]
  · match d, h with
    | Data.int n, h =>
      obtain ⟨-, htd, hs, -⟩ := h
      simp only at htd
      subst htd
      cases tk <;> simp [isSignedKind, isUnsignedKind] at hs <;>
        simp [Float32, Float64, kindOf, assertInt, isNumberKind, isSignedKind, isUnsignedKind,
          isFloatKind]
    | Data.float f, h =>
      obtain ⟨-, htd, hf⟩ := h
      simp only at htd
      subst htd
      cases tk <;> simp [isFloatKind] at hf <;>
        simp [Float32, Float64, kindOf, assertFloat, isNumberKind, isSignedKind, isUnsignedKind,
          isFloatKind]

theorem Float32_Float64_flag_witness :
    (isNumberKind (DynType.mk Kind.Uint8 false).kind = false ∨
      (Iface.val ⟨Kind.Uint8, false⟩ (Data.int 200)).holdsBuiltin 64
        (DynType.mk Kind.Uint8 false).kind) ∧
    ∃ f g : GoFloat,
      Float32 (Iface.val ⟨Kind.Uint8, false⟩ (Data.int 200))
        = some (f, isNumberKind (DynType.mk Kind.Uint8 false).kind) ∧
      Float64 (Iface.val ⟨Kind.Uint8, false⟩ (Data.int 200))
        = some (g, isNumberKind (DynType.mk Kind.Uint8 false).kind) ∧
      (isNumberKind (DynType.mk Kind.Uint8 false).kind = false →
        f = GoFloat.num false 0 ∧ g = GoFloat.num false 0) :=
  ⟨Or.inr (by simp [Iface.holdsBuiltin, isUnsignedKind, inRange]),
    Float32_Float64_flag 64 ⟨Kind.Uint8, false⟩ (Data.int 200)
      (Or.inr (by simp [Iface.holdsBuiltin, isUnsignedKind, inRange]))⟩

/-! ## Claims about `RemovePtrFromType` -/

theorem ptrLoop_tower (tbl : TypeTable) (T : TypeId) (hT : tbl.kind T ≠ Kind.Ptr) :
    ∀ (n : ℕ) (v : TypeId), isPtrTower tbl n v T →
      ∀ fuel : ℕ, n < fuel → ptrLoop tbl fuel v = Run.done T := by
  intro n
  induction n with
  | zero =>
    intro v hv fuel hf
    simp only [isPtrTower] at hv
    subst hv
    obtain ⟨f, rfl⟩ : ∃ f, fuel = f + 1 := ⟨fuel - 1, by omega⟩
    simp [ptrLoop, hT]
  | succ n ih =>
    intro v hv fuel hf
    obtain ⟨hk, w, hw, hrest⟩ := hv
    obtain ⟨f, rfl⟩ : ∃ f, fuel = f + 1 := ⟨fuel - 1, by omega⟩
    simp only [ptrLoop, hk, if_true, hw]
    exact ih w hrest f (by omega)

theorem ptrLoop_done_kind (tbl : TypeTable) :
    ∀ (fuel : ℕ) (v r : TypeId), ptrLoop tbl fuel v = Run.done r → tbl.kind r ≠ Kind.Ptr := by
  intro fuel
  induction fuel with
  | zero => intro v r h; simp [ptrLoop] at h
  | succ f ih =>
    intro v r h
    unfold ptrLoop at h
    split_ifs at h with hk
    · cases he : tbl.elem v with
      | none => rw [he] at h; simp at h
      | some w => rw [he] at h; exact ih w r h
    · cases h; exact hk

/-- C8: for a type `T` that is not a pointer type and a type `v` that is `n` levels of
pointer to `T`, `RemovePtrFromType` returns `T` once the loop is given more than `n`
iterations, whether `v` is passed as a `reflect.Type` or as a value of type `v`; any result
the function returns is not of pointer kind; a type that is not a pointer type is returned
unchanged. -/
theorem RemovePtrFromType_tower (tbl : TypeTable) (T v : TypeId) (n : ℕ)
    (hT : tbl.kind T ≠ Kind.Ptr) (hv : isPtrTower tbl n v T) :
    (∀ fuel : ℕ, n < fuel →
      RemovePtrFromType tbl fuel (Arg.type v) = Run.done T ∧
      RemovePtrFromType tbl fuel (Arg.value v) = Run.done T) ∧
    (∀ (fuel : ℕ) (a : Arg) (r : TypeId),
      RemovePtrFromType tbl fuel a = Run.done r → tbl.kind r ≠ Kind.Ptr) ∧
    (∀ fuel : ℕ, 0 < fuel →
      RemovePtrFromType tbl fuel (Arg.type T) = Run.done T ∧
      RemovePtrFromType tbl fuel (Arg.value T) = Run.done T) := by
  refine ⟨fun fuel hf => ?_, ?_, fun fuel hf => ?_⟩
  · have := ptrLoop_tower tbl T hT n v hv fuel hf
    exact ⟨this, this⟩
  · intro fuel a r h
    cases a with
    | nil => simp [RemovePtrFromType] at h
    | type rt => exact ptrLoop_done_kind tbl fuel rt r h
    | value typ => exact ptrLoop_done_kind tbl fuel typ r h
  · have := ptrLoop_tower tbl T hT 0 T rfl fuel hf
    exact ⟨this, this⟩

theorem RemovePtrFromType_tower_witness :
    sampleTypes.kind 0 ≠ Kind.Ptr ∧ isPtrTower sampleTypes 2 2 0 ∧
    ((∀ fuel : ℕ, 2 < fuel →
      RemovePtrFromType sampleTypes fuel (Arg.type 2) = Run.done 0 ∧
      RemovePtrFromType sampleTypes fuel (Arg.value 2) = Run.done 0) ∧
    (∀ (fuel : ℕ) (a : Arg) (r : TypeId),
      RemovePtrFromType sampleTypes fuel a = Run.done r → sampleTypes.kind r ≠ Kind.Ptr) ∧
    (∀ fuel : ℕ, 0 < fuel →
      RemovePtrFromType sampleTypes fuel (Arg.type 0) = Run.done 0 ∧
      RemovePtrFromType sampleTypes fuel (Arg.value 0) = Run.done 0)) :=
  ⟨by decide, ⟨rfl, 1, rfl, rfl, 0, rfl, rfl⟩,
    RemovePtrFromType_tower sampleTypes 0 2 2 (by decide) ⟨rfl, 1, rfl, rfl, 0, rfl, rfl⟩⟩

/-- The loop never terminates on the type `type P *P`, which is its own element. -/
theorem ptrLoop_self_pointer (fuel : ℕ) : ptrLoop sampleTypes fuel 3 = Run.outOfFuel := by
  induction fuel with
  | zero => rfl
  | succ f ih => simpa [ptrLoop, sampleTypes] using ih

end treflect

/-! # Theorems: package `tos` -/

namespace tos

set_option maxRecDepth 100000

/-! ## The store -/

theorem lookup_store (fs : FS) (p q : Path) (e : Entry) :
    lookup (store fs p e) q = if p = q then some e else lookup fs q := by
  induction fs with
  | nil => simp [store, lookup]
  | cons hd tl ih =>
    obtain ⟨r, x⟩ := hd
    simp only [store]
    by_cases hrp : r = p
    · rw [if_pos hrp]
      simp only [lookup]
      rw [hrp]
      split_ifs <;> rfl
    · rw [if_neg hrp]
      simp only [lookup, ih]
      by_cases hrq : r = q
      · have hpq : ¬ p = q := fun h => hrp (hrq.trans h.symm)
        rw [if_pos hrq, if_neg hpq, if_pos hrq]
      · rw [if_neg hrq, if_neg hrq]

theorem lookup_store_self (fs : FS) (p : Path) (e : Entry) :
    lookup (store fs p e) p = some e := by
  simp [lookup_store]

theorem lookup_store_ne (fs : FS) {p q : Path} (e : Entry) (h : q ≠ p) :
    lookup (store fs p e) q = lookup fs q := by
  simp [lookup_store, Ne.symm h]

theorem lookup_isSome_iff_mem (fs : FS) (p : Path) :
    (∃ e, lookup fs p = some e) ↔ p ∈ fs.map Prod.fst := by
  induction fs with
  | nil => simp [lookup]
  | cons hd tl ih =>
    obtain ⟨r, x⟩ := hd
    simp only [lookup, List.map_cons, List.mem_cons]
    by_cases hrp : r = p
    · rw [if_pos hrp]
      exact ⟨fun _ => Or.inl hrp.symm, fun _ => ⟨x, rfl⟩⟩
    · rw [if_neg hrp, ih]
      constructor
      · exact Or.inr
      · rintro (h | h)
        · exact absurd h.symm hrp
        · exact h

theorem keys_store_of_lookup (fs : FS) (p : Path) (e x : Entry) (h : lookup fs p = some x) :
    (store fs p e).map Prod.fst = fs.map Prod.fst := by
  induction fs with
  | nil => simp [lookup] at h
  | cons hd tl ih =>
    obtain ⟨r, y⟩ := hd
    simp only [store]
    by_cases hrp : r = p
    · rw [if_pos hrp]; rfl
    · simp only [lookup, if_neg hrp] at h
      rw [if_neg hrp]
      simp only [List.map_cons, ih h]

/-! ## Paths -/

theorem under_append (root rel : Path) : under root (root ++ rel) = true := by
  induction root with
  | nil => simp [under]
  | cons a r ih => simp [under, ih]

theorem under_self (root : Path) : under root root = true := by
  simpa using under_append root []

theorem append_drop_of_under : ∀ (root p : Path), under root p = true →
    root ++ p.drop root.length = p
  | [], p, _ => by simp
  | _ :: _, [], h => by simp [under] at h
  | a :: r, b :: p, h => by
    simp only [under, Bool.and_eq_true, decide_eq_true_eq] at h
    obtain ⟨hab, hr⟩ := h
    subst hab
    simp [append_drop_of_under r p hr]

theorem mem_walkPaths (fs : FS) (root p : Path) :
    p ∈ walkPaths fs root ↔ p ∈ fs.map Prod.fst ∧ under root p = true := by
  unfold walkPaths
  rw [(List.perm_insertionSort _ _).mem_iff, List.mem_filter]

theorem walkPaths_congr (fs1 fs2 : FS) (root : Path)
    (h : fs1.map Prod.fst = fs2.map Prod.fst) : walkPaths fs1 root = walkPaths fs2 root := by
  unfold walkPaths; rw [h]

theorem lookup_none_of_fresh (fs : FS) (dest q : Path) (hf : fresh fs dest = true)
    (hq : under dest q = true) : lookup fs q = none := by
  cases h : lookup fs q with
  | none => rfl
  | some e =>
    exfalso
    have hmem : q ∈ fs.map Prod.fst := (lookup_isSome_iff_mem fs q).mp ⟨e, h⟩
    obtain ⟨pe, hpe, hpq⟩ := List.mem_map.mp hmem
    have := (List.all_eq_true.mp hf) pe hpe
    rw [hpq, hq] at this
    simp at this

/-! ## Tree-wide operations -/

/-- The invariant rule of a tree-wide operation that succeeds: what holds of the file
system is kept, and what a step establishes at its entry stays established. -/
theorem forEach_invariant (step : FS → Path → FS × Option Error) (S : Path → Prop)
    (Inv : FS → Prop) (Q : FS → Path → Prop)
    (hstep : ∀ fs p fs1, S p → Inv fs → step fs p = (fs1, none) →
      Inv fs1 ∧ Q fs1 p ∧ ∀ q, Q fs q → Q fs1 q) :
    ∀ (ps : List Path) (fs : FS), (∀ p ∈ ps, S p) → Inv fs → (forEach step ps fs).2 = none →
      Inv (forEach step ps fs).1 ∧ (∀ p ∈ ps, Q (forEach step ps fs).1 p) ∧
        ∀ q, Q fs q → Q (forEach step ps fs).1 q := by
  intro ps
  induction ps with
  | nil => intro fs _ hinv _; exact ⟨hinv, by simp, fun q hq => hq⟩
  | cons p ps ih =>
    intro fs hS hinv hok
    rcases hs : step fs p with ⟨fs1, _ | err⟩
    · simp only [forEach, hs] at hok ⊢
      obtain ⟨hinv1, hq1, hkeep1⟩ := hstep fs p fs1 (hS p (List.mem_cons_self _ _)) hinv hs
      obtain ⟨hinv2, hq2, hkeep2⟩ :=
        ih fs1 (fun q hq => hS q (List.mem_cons_of_mem _ hq)) hinv1 hok
      refine ⟨hinv2, ?_, fun q hq => hkeep2 q (hkeep1 q hq)⟩
      intro q hq
      rcases List.mem_cons.mp hq with rfl | hq
      · exact hkeep2 _ hq1
      · exact hq2 q hq
    · simp [forEach, hs] at hok

/-! ## `Chmod` -/

theorem setPerm_mod (mode m : ℕ) : setPerm mode m % 512 = m % 512 := by
  unfold setPerm; omega

theorem stat_ok (env : Env) (fs : FS) (p : Path) (x : Entry) (h : stat env fs p = Sum.inr x) :
    env.fault p = none ∧ lookup fs p = some x := by
  unfold stat at h
  cases hf : env.fault p with
  | some err => rw [hf] at h; simp at h
  | none =>
    rw [hf] at h
    cases hl : lookup fs p with
    | none => rw [hl] at h; simp at h
    | some y =>
      rw [hl] at h
      simp only [Sum.inr.injEq] at h
      exact ⟨rfl, by rw [h]⟩

theorem chmodStep_ok (env : Env) (m : ℕ) (fs fs1 : FS) (p : Path)
    (h : chmodStep env m fs p = (fs1, none)) :
    ∃ x, lookup fs p = some x ∧ fs1 = store fs p { x with mode := setPerm x.mode m } := by
  unfold chmodStep at h
  cases hs : stat env fs p with
  | inl err => rw [hs] at h; simp at h
  | inr x =>
    rw [hs] at h
    simp only [Prod.mk.injEq, and_true] at h
    exact ⟨x, (stat_ok env fs p x hs).2, h.symm⟩

/-- C10: after `Chmod(T, M)` succeeds for a permission pattern `M` (nine bits), a walk of `T`
visits the root `T` itself and every entry that was in `T`, and every entry it visits, of
whatever kind, has permission bits `mode & 0777` equal to `M`. -/
theorem Chmod_sets_permission_bits (env : Env) (fs : FS) (root : Path) (m : ℕ)
    (hm : m < 512) (hok : (Chmod env root m fs).2 = none) :
    root ∈ walkPaths (Chmod env root m fs).1 root ∧
    (∀ p ∈ walkPaths (Chmod env root m fs).1 root,
      ∃ e, lookup (Chmod env root m fs).1 p = some e ∧ e.mode % 512 = m) ∧
    (∀ (rel : Path) (e0 : Entry), lookup fs (root ++ rel) = some e0 →
      root ++ rel ∈ walkPaths (Chmod env root m fs).1 root) := by
  unfold Chmod at hok ⊢
  cases hroot : lookup fs root with
  | none => simp [hroot] at hok
  | some r =>
    simp only [hroot] at hok ⊢
    have key := forEach_invariant (chmodStep env m) (fun _ => True)
      (fun fs1 => fs1.map Prod.fst = fs.map Prod.fst)
      (fun fs1 p => ∃ e, lookup fs1 p = some e ∧ e.mode % 512 = m)
      (by
        intro fs1 p fs2 _ hinv hs
        obtain ⟨x, hx, rfl⟩ := chmodStep_ok env m fs1 fs2 p hs
        refine ⟨?_, ?_, ?_⟩
        · show (store fs1 p _).map Prod.fst = fs.map Prod.fst
          rw [keys_store_of_lookup fs1 p _ x hx, hinv]
        · exact ⟨_, lookup_store_self _ _ _, by
            simp only [setPerm_mod]; exact Nat.mod_eq_of_lt hm⟩
        · rintro q ⟨e, he, hem⟩
          by_cases hqp : q = p
          · subst hqp
            exact ⟨_, lookup_store_self _ _ _, by
              simp only [setPerm_mod]; exact Nat.mod_eq_of_lt hm⟩
          · exact ⟨e, by rw [lookup_store_ne _ _ hqp]; exact he, hem⟩)
      (walkPaths fs root) fs (fun _ _ => trivial) rfl hok
    obtain ⟨hkeys, hall, -⟩ := key
    have hwalk : walkPaths (forEach (chmodStep env m) (walkPaths fs root) fs).1 root
        = walkPaths fs root := walkPaths_congr _ _ root hkeys
    rw [hwalk]
    refine ⟨?_, hall, ?_⟩
    · rw [mem_walkPaths]
      exact ⟨(lookup_isSome_iff_mem fs root).mp ⟨r, hroot⟩, under_self root⟩
    · intro rel e0 he0
      rw [mem_walkPaths]
      exact ⟨(lookup_isSome_iff_mem fs _).mp ⟨e0, he0⟩, under_append root rel⟩

theorem Chmod_sets_permission_bits_witness :
    0o777 < 512 ∧ (Chmod quietEnv (testRoot "chmod") 0o777 (testTree "chmod")).2 = none ∧
    (testRoot "chmod" ∈
        walkPaths (Chmod quietEnv (testRoot "chmod") 0o777 (testTree "chmod")).1
          (testRoot "chmod") ∧
      (∀ p ∈ walkPaths (Chmod quietEnv (testRoot "chmod") 0o777 (testTree "chmod")).1
          (testRoot "chmod"),
        ∃ e, lookup (Chmod quietEnv (testRoot "chmod") 0o777 (testTree "chmod")).1 p = some e ∧
          e.mode % 512 = 0o777) ∧
      (∀ (rel : Path) (e0 : Entry), lookup (testTree "chmod") (testRoot "chmod" ++ rel) = some e0 →
        testRoot "chmod" ++ rel ∈
          walkPaths (Chmod quietEnv (testRoot "chmod") 0o777 (testTree "chmod")).1
            (testRoot "chmod"))) :=
  ⟨by decide, by decide,
    Chmod_sets_permission_bits quietEnv (testTree "chmod") (testRoot "chmod") 0o777
      (by decide) (by decide)⟩

/-! ## `Copy` -/

theorem mkdirAllFrom_ok (env : Env) : ∀ (rest : List String) (pre : Path) (fs fs1 : FS),
    mkdirAllFrom env pre rest fs = (fs1, none) →
      (∀ q y, lookup fs q = some y → lookup fs1 q = some y) ∧
      (rest ≠ [] → ∃ x, lookup fs1 (pre ++ rest) = some x ∧ x.content = Content.dir) ∧
      (∀ q y, lookup fs1 q = some y → lookup fs q = some y ∨ y.content = Content.dir) := by
  intro rest
  induction rest with
  | nil =>
    intro pre fs fs1 h
    simp only [mkdirAllFrom, Prod.mk.injEq, and_true] at h
    subst h
    exact ⟨fun _ _ h => h, fun h => absurd rfl h, fun _ _ h => Or.inl h⟩
  | cons name rest ih =>
    intro pre fs fs1 h
    unfold mkdirAllFrom at h
    have happ : pre ++ name :: rest = (pre ++ [name]) ++ rest := by simp
    cases hl : lookup fs (pre ++ [name]) with
    | none =>
      rw [hl] at h
      simp only at h
      obtain ⟨ha, hb, hc⟩ := ih _ _ _ h
      have hne : ∀ q y, lookup fs q = some y → q ≠ pre ++ [name] := by
        intro q y hq hqe
        rw [hqe, hl] at hq
        exact absurd hq (by simp)
      refine ⟨?_, ?_, ?_⟩
      · intro q y hq
        apply ha
        rw [lookup_store_ne _ _ (hne q y hq)]
        exact hq
      · intro _
        rw [happ]
        by_cases hr : rest = []
        · subst hr
          rw [List.append_nil]
          exact ⟨⟨Content.dir, env.dirMode, env.uid, env.gid⟩,
            ha _ _ (lookup_store_self _ _ _), rfl⟩
        · exact hb hr
      · intro q y hq
        rcases hc q y hq with h1 | h1
        · rw [lookup_store] at h1
          split_ifs at h1 with heq
          · simp only [Option.some.injEq] at h1
            right; rw [← h1]
          · exact Or.inl h1
        · exact Or.inr h1
    | some x =>
      rw [hl] at h
      simp only at h
      split_ifs at h with hx
      · obtain ⟨ha, hb, hc⟩ := ih _ _ _ h
        refine ⟨ha, ?_, hc⟩
        intro _
        rw [happ]
        by_cases hr : rest = []
        · subst hr
          rw [List.append_nil]
          exact ⟨x, ha _ _ hl, hx⟩
        · exact hb hr
      · simp at h

/-- What a successful step of the CopyEngine does: the visited entry exists; no other path
than the destination path loses or changes its entry; the destination path holds an entry
with the content of the visited one; and what is new is that entry or a directory. -/
theorem copyStep_ok (env : Env) (dest src : Path) (fs fs1 : FS) (p : Path)
    (h : copyStep env dest src fs p = (fs1, none)) (hne : dest ++ p.drop src.length ≠ []) :
    ∃ x, lookup fs p = some x ∧
      (∀ q y, lookup fs q = some y → q ≠ dest ++ p.drop src.length → lookup fs1 q = some y) ∧
      (∃ x1, lookup fs1 (dest ++ p.drop src.length) = some x1 ∧ x1.content = x.content) ∧
      (∀ q y, lookup fs1 q = some y → lookup fs q = some y ∨
        (q = dest ++ p.drop src.length ∧ y.content = x.content) ∨ y.content = Content.dir) := by
  unfold copyStep at h
  cases hs : stat env fs p with
  | inl err => rw [hs] at h; simp at h
  | inr x =>
    rw [hs] at h
    simp only at h
    refine ⟨x, (stat_ok env fs p x hs).2, ?_⟩
    cases hf : env.fault (dest ++ p.drop src.length) with
    | some err => rw [hf] at h; simp at h
    | none =>
      rw [hf] at h
      simp only at h
      have store_case : ∀ (fs2 : FS) (z : Entry), z.content = x.content →
          (∀ q y, lookup fs q = some y → lookup fs2 q = some y) →
          (∀ q y, lookup fs2 q = some y → lookup fs q = some y ∨ y.content = Content.dir) →
          fs1 = store fs2 (dest ++ p.drop src.length) z →
          (∀ q y, lookup fs q = some y → q ≠ dest ++ p.drop src.length →
            lookup fs1 q = some y) ∧
          (∃ x1, lookup fs1 (dest ++ p.drop src.length) = some x1 ∧ x1.content = x.content) ∧
          (∀ q y, lookup fs1 q = some y → lookup fs q = some y ∨
            (q = dest ++ p.drop src.length ∧ y.content = x.content) ∨
            y.content = Content.dir) := by
        intro fs2 z hz ha hc hfs1
        subst hfs1
        refine ⟨?_, ⟨z, lookup_store_self _ _ _, hz⟩, ?_⟩
        · intro q y hq hqt
          rw [lookup_store_ne _ _ hqt]
          exact ha q y hq
        · intro q y hq
          rw [lookup_store] at hq
          split_ifs at hq with heq
          · simp only [Option.some.injEq] at hq
            right; left
            exact ⟨heq.symm, by rw [← hq]; exact hz⟩
          · rcases hc q y hq with h1 | h1
            · exact Or.inl h1
            · exact Or.inr (Or.inr h1)
      have other_case :
          (match mkdirAll env (dest ++ p.drop src.length).dropLast fs with
            | (fs2, some err) => (fs2, some err)
            | (fs2, none) =>
              match lookup fs2 (dest ++ p.drop src.length) with
              | none => (store fs2 (dest ++ p.drop src.length) (duplicate env x), none)
              | some y =>
                match x.content, y.content with
                | Content.file _, Content.file _ =>
                  (store fs2 (dest ++ p.drop src.length) { y with content := x.content }, none)
                | _, _ => (fs2, some Error.IOFailure)) = (fs1, none) →
          (∀ q y, lookup fs q = some y → q ≠ dest ++ p.drop src.length →
            lookup fs1 q = some y) ∧
          (∃ x1, lookup fs1 (dest ++ p.drop src.length) = some x1 ∧ x1.content = x.content) ∧
          (∀ q y, lookup fs1 q = some y → lookup fs q = some y ∨
            (q = dest ++ p.drop src.length ∧ y.content = x.content) ∨
            y.content = Content.dir) := by
        intro h
        rcases hm : mkdirAll env (dest ++ p.drop src.length).dropLast fs with ⟨fs2, _ | err⟩
        · rw [hm] at h
          simp only at h
          obtain ⟨ha, -, hc⟩ := mkdirAllFrom_ok env _ [] fs fs2 hm
          cases hl : lookup fs2 (dest ++ p.drop src.length) with
          | none =>
            rw [hl] at h
            simp only [Prod.mk.injEq, and_true] at h
            exact store_case fs2 (duplicate env x) rfl ha hc h.symm
          | some y =>
            rw [hl] at h
            simp only at h
            split at h
            · simp only [Prod.mk.injEq, and_true] at h
              exact store_case fs2 { y with content := x.content } rfl ha hc h.symm
            · simp at h
        · rw [hm] at h
          simp at h
      cases hx : x.content with
      | dir =>
        rw [hx] at h
        simp only at h
        obtain ⟨ha, hb, hc⟩ := mkdirAllFrom_ok env _ [] fs fs1 h
        refine ⟨fun q y hq _ => ha q y hq, ?_, ?_⟩
        · have := hb hne
          simpa using this
        · intro q y hq
          rcases hc q y hq with h1 | h1
          · exact Or.inl h1
          · exact Or.inr (Or.inr h1)
      | file bytes =>
        rw [hx] at h other_case store_case
        exact other_case h
      | symlink target =>
        rw [hx] at h other_case store_case
        exact other_case h

/-- C9: after `Copy(D, T)` succeeds on a fresh destination `D`, every entry of `T` (file,
directory, empty or not, link) has an entry of the same kind at the corresponding relative
path of `D`, a regular file with the same bytes; and every regular file of `D` has the
bytes of the regular file at the corresponding path of `T`. -/
theorem Copy_reproduces_tree (env : Env) (fs : FS) (dest src : Path)
    (hfresh : fresh fs dest = true) (hok : (Copy env dest src fs).2 = none) :
    (∀ (rel : Path) (e : Entry), lookup fs (src ++ rel) = some e →
      ∃ e1, lookup (Copy env dest src fs).1 (dest ++ rel) = some e1 ∧
        e1.content = e.content) ∧
    (∀ (rel : Path) (e1 : Entry) (bytes : List ℕ),
      lookup (Copy env dest src fs).1 (dest ++ rel) = some e1 →
      e1.content = Content.file bytes →
      ∃ e, lookup fs (src ++ rel) = some e ∧ e.content = Content.file bytes) := by
  unfold Copy at hok ⊢
  cases hroot : lookup fs src with
  | none => simp [hroot] at hok
  | some r =>
    simp only [hroot] at hok ⊢
    have hdest : dest ≠ [] := by
      intro hd
      have := lookup_none_of_fresh fs dest src hfresh (by rw [hd]; rfl)
      rw [hroot] at this
      exact absurd this (by simp)
    have htgt_ne : ∀ p : Path, dest ++ p.drop src.length ≠ [] := by
      intro p hp
      exact hdest (List.append_eq_nil.mp hp).1
    have htgt_none : ∀ rel : Path, lookup fs (dest ++ rel) = none :=
      fun rel => lookup_none_of_fresh fs dest _ hfresh (under_append dest rel)
    have key := forEach_invariant (copyStep env dest src)
      (fun p => under src p = true ∧ ∃ e, lookup fs p = some e)
      (fun fs1 => (∀ q x, lookup fs q = some x → lookup fs1 q = some x) ∧
        (∀ rel y, lookup fs1 (dest ++ rel) = some y → y.content = Content.dir ∨
          ∃ e, lookup fs (src ++ rel) = some e ∧ e.content = y.content))
      (fun fs1 p => under src p = true → ∀ e, lookup fs p = some e →
        ∃ e1, lookup fs1 (dest ++ p.drop src.length) = some e1 ∧ e1.content = e.content)
      (by
        intro fs1 p fs2 hS hinv hs
        obtain ⟨hup, ep, hep⟩ := hS
        obtain ⟨hold, hnew⟩ := hinv
        obtain ⟨x, hx, ha, hb, hc⟩ := copyStep_ok env dest src fs1 fs2 p hs (htgt_ne p)
        have hxe : x = ep := by
          have := hold p ep hep
          rw [hx] at this
          exact Option.some.inj this
        subst hxe
        have hpq : src ++ p.drop src.length = p := append_drop_of_under src p hup
        refine ⟨⟨?_, ?_⟩, ?_, ?_⟩
        · intro q y hq
          apply ha q y (hold q y hq)
          intro hqt
          rw [hqt, htgt_none] at hq
          exact absurd hq (by simp)
        · intro rel y hy
          rcases hc _ y hy with h1 | ⟨h1, h2⟩ | h1
          · exact hnew rel y h1
          · right
            have hrel : rel = p.drop src.length := List.append_cancel_left h1
            rw [hrel, hpq]
            exact ⟨x, hep, h2.symm⟩
          · exact Or.inl h1
        · intro _ e he
          rw [hep] at he
          obtain ⟨x1, hx1, hx1c⟩ := hb
          exact ⟨x1, hx1, by rw [hx1c, Option.some.inj he]⟩
        · intro q hq huq e he
          by_cases hqp : q = p
          · subst hqp
            rw [hep] at he
            obtain ⟨x1, hx1, hx1c⟩ := hb
            exact ⟨x1, hx1, by rw [hx1c, Option.some.inj he]⟩
          · obtain ⟨e1, he1, he1c⟩ := hq huq e he
            refine ⟨e1, ha _ e1 he1 ?_, he1c⟩
            intro heq
            have hd : q.drop src.length = p.drop src.length := List.append_cancel_left heq
            apply hqp
            rw [← append_drop_of_under src q huq, hd, hpq])
      (walkPaths fs src) fs
      (by
        intro p hp
        rw [mem_walkPaths] at hp
        exact ⟨hp.2, (lookup_isSome_iff_mem fs p).mpr hp.1⟩)
      ⟨fun _ _ h => h, by
        intro rel y hy
        rw [htgt_none] at hy
        exact absurd hy (by simp)⟩
      hok
    obtain ⟨⟨-, hnew⟩, hall, -⟩ := key
    refine ⟨?_, ?_⟩
    · intro rel e he
      have hmem : src ++ rel ∈ walkPaths fs src := by
        rw [mem_walkPaths]
        exact ⟨(lookup_isSome_iff_mem fs _).mp ⟨e, he⟩, under_append src rel⟩
      have := hall _ hmem (under_append src rel) e he
      rwa [List.drop_left] at this
    · intro rel e1 bytes he1 hfile
      rcases hnew rel e1 he1 with h1 | ⟨e, he, hec⟩
      · rw [hfile] at h1
        exact absurd h1 (by simp)
      · exact ⟨e, he, by rw [hec, hfile]⟩

theorem Copy_reproduces_tree_witness :
    fresh (testTree "copy") (testRoot "copy_target") = true ∧
    (Copy quietEnv (testRoot "copy_target") (testRoot "copy") (testTree "copy")).2 = none ∧
    ((∀ (rel : Path) (e : Entry), lookup (testTree "copy") (testRoot "copy" ++ rel) = some e →
      ∃ e1, lookup (Copy quietEnv (testRoot "copy_target") (testRoot "copy") (testTree "copy")).1
          (testRoot "copy_target" ++ rel) = some e1 ∧ e1.content = e.content) ∧
    (∀ (rel : Path) (e1 : Entry) (bytes : List ℕ),
      lookup (Copy quietEnv (testRoot "copy_target") (testRoot "copy") (testTree "copy")).1
        (testRoot "copy_target" ++ rel) = some e1 →
      e1.content = Content.file bytes →
      ∃ e, lookup (testTree "copy") (testRoot "copy" ++ rel) = some e ∧
        e.content = Content.file bytes)) :=
  ⟨by decide, by decide,
    Copy_reproduces_tree quietEnv (testTree "copy") (testRoot "copy_target") (testRoot "copy")
      (by decide) (by decide)⟩

/-- The observations of `TestCopy`: the seven entries exist under the target and the three
files hold `test1`, `test2` and `test3`. -/
theorem Copy_test_tree :
    ([["1.test"], ["test1"], ["test1", "2.test"], ["test1", "test2a"],
      ["test1", "test2a", "3.test"], ["test1", "test2b"], ["test3"]].map (fun rel =>
        (lookup (Copy quietEnv (testRoot "copy_target") (testRoot "copy") (testTree "copy")).1
          (testRoot "copy_target" ++ rel)).map Entry.content))
      = [some (Content.file [116, 101, 115, 116, 49]), some Content.dir,
          some (Content.file [116, 101, 115, 116, 50]), some Content.dir,
          some (Content.file [116, 101, 115, 116, 51]), some Content.dir, some Content.dir] := by
  decide

/-- Both operations fail with `NotFound` on a root that does not exist, and a failure of
the host at an entry ends the operation with that error. -/
theorem Copy_Chmod_failures :
    (Copy quietEnv (testRoot "copy_target") (testRoot "nothing") (testTree "copy")).2
      = some Error.NotFound ∧
    (Chmod quietEnv (testRoot "nothing") 0o777 (testTree "chmod")).2 = some Error.NotFound ∧
    (Chmod deniedEnv (testRoot "chmod") 0o777 (testTree "chmod")).2
      = some Error.PermissionDenied := by
  decide

/-! ## `Remove` -/

theorem lookup_erase (fs : FS) (p q : Path) :
    lookup (erase fs p) q = if p = q then none else lookup fs q := by
  induction fs with
  | nil => simp [erase, lookup]
  | cons hd tl ih =>
    obtain ⟨r, x⟩ := hd
    simp only [erase]
    by_cases hrp : r = p
    · rw [if_pos hrp, ih]
      simp only [lookup]
      by_cases hpq : p = q
      · rw [if_pos hpq, if_pos hpq]
      · have hrq : ¬ r = q := fun h => hpq (hrp.symm.trans h)
        rw [if_neg hpq, if_neg hpq, if_neg hrq]
    · rw [if_neg hrp]
      simp only [lookup, ih]
      by_cases hrq : r = q
      · have hpq : ¬ p = q := fun h => hrp (hrq.trans h.symm)
        rw [if_pos hrq, if_neg hpq, if_pos hrq]
      · rw [if_neg hrq, if_neg hrq]

theorem removeStep_ok (env : Env) (fs fs1 : FS) (p : Path)
    (h : removeStep env fs p = (fs1, none)) : env.fault p = none ∧ fs1 = erase fs p := by
  unfold removeStep at h
  cases hf : env.fault p with
  | some err => rw [hf] at h; simp at h
  | none =>
    rw [hf] at h
    simp only [Prod.mk.injEq, and_true] at h
    exact ⟨rfl, h.symm⟩

theorem forEach_removeStep_quiet (env : Env) (hq : ∀ q, env.fault q = none) :
    ∀ (ps : List Path) (fs : FS), (forEach (removeStep env) ps fs).2 = none := by
  intro ps
  induction ps with
  | nil => intro fs; rfl
  | cons p ps ih =>
    intro fs
    have hs : removeStep env fs p = (erase fs p, none) := by
      unfold removeStep; rw [hq p]
    simp only [forEach, hs]
    exact ih _

/-- C11: `Remove(P)` on a path that does not exist returns success and changes nothing;
after a successful `Remove(P)` neither `P` nor any entry beneath it exists, and a second
`Remove(P)` succeeds and changes nothing; where the host blocks no deletion the first
call succeeds, so both calls do.  The file system is a tree at `P`: when `P` does not
exist, nothing exists beneath it. -/
theorem Remove_idempotent (env : Env) (fs : FS) (P : Path)
    (hwf : lookup fs P = none → fresh fs P = true) :
    (lookup fs P = none → Remove env P fs = (fs, none)) ∧
    ((Remove env P fs).2 = none →
      (∀ q, under P q = true → lookup (Remove env P fs).1 q = none) ∧
      Remove env P (Remove env P fs).1 = ((Remove env P fs).1, none)) ∧
    ((∀ q, env.fault q = none) → (Remove env P fs).2 = none) := by
  have habsent : ∀ fs0 : FS, lookup fs0 P = none → Remove env P fs0 = (fs0, none) := by
    intro fs0 h
    unfold Remove
    rw [h]
  refine ⟨habsent fs, ?_, ?_⟩
  · intro hok
    have hgone : ∀ q, under P q = true → lookup (Remove env P fs).1 q = none := by
      cases hroot : lookup fs P with
      | none =>
        intro q hq
        rw [habsent fs hroot]
        exact lookup_none_of_fresh fs P q (hwf hroot) hq
      | some r =>
        unfold Remove at hok ⊢
        simp only [hroot] at hok ⊢
        have key := forEach_invariant (removeStep env) (fun _ => True)
          (fun fs1 => ∀ q, lookup fs q = none → lookup fs1 q = none)
          (fun fs1 p => lookup fs1 p = none)
          (by
            intro fs1 p fs2 _ hinv hs
            obtain ⟨-, rfl⟩ := removeStep_ok env fs1 fs2 p hs
            refine ⟨?_, ?_, ?_⟩
            · intro q hq
              rw [lookup_erase]
              split_ifs
              · rfl
              · exact hinv q hq
            · show lookup (erase fs1 p) p = none
              rw [lookup_erase, if_pos rfl]
            · intro q hq
              show lookup (erase fs1 p) q = none
              rw [lookup_erase]
              split_ifs
              · rfl
              · exact hq)
          (walkPaths fs P).reverse fs (fun _ _ => trivial) (fun _ h => h) hok
        obtain ⟨hkeep, hall, -⟩ := key
        intro q hq
        cases hl : lookup fs q with
        | none => exact hkeep q hl
        | some e =>
          apply hall q
          rw [List.mem_reverse, mem_walkPaths]
          exact ⟨(lookup_isSome_iff_mem fs q).mp ⟨e, hl⟩, hq⟩
    exact ⟨hgone, habsent _ (hgone P (under_self P))⟩
  · intro hq
    unfold Remove
    cases hroot : lookup fs P with
    | none => rfl
    | some r => exact forEach_removeStep_quiet env hq _ _

theorem Remove_idempotent_witness :
    (lookup (testTree "copy") ["tmp", "tgo_tos"] = none →
      fresh (testTree "copy") ["tmp", "tgo_tos"] = true) ∧
    ((lookup (testTree "copy") ["tmp", "tgo_tos"] = none →
        Remove quietEnv ["tmp", "tgo_tos"] (testTree "copy") = (testTree "copy", none)) ∧
    ((Remove quietEnv ["tmp", "tgo_tos"] (testTree "copy")).2 = none →
      (∀ q, under ["tmp", "tgo_tos"] q = true →
        lookup (Remove quietEnv ["tmp", "tgo_tos"] (testTree "copy")).1 q = none) ∧
      Remove quietEnv ["tmp", "tgo_tos"] (Remove quietEnv ["tmp", "tgo_tos"] (testTree "copy")).1
        = ((Remove quietEnv ["tmp", "tgo_tos"] (testTree "copy")).1, none)) ∧
    ((∀ q, quietEnv.fault q = none) →
      (Remove quietEnv ["tmp", "tgo_tos"] (testTree "copy")).2 = none)) :=
  ⟨by decide, Remove_idempotent quietEnv (testTree "copy") ["tmp", "tgo_tos"] (by decide)⟩

/-- The call `Remove("/tmp/tgo_tos")` of `createTosTestStructure` on the tree of the tests
leaves `/tmp` alone, and on the result it is a no-op success; a blocked deletion ends the
call with its error, what lies beneath the blocked entry already being deleted. -/
theorem Remove_test_tree :
    Remove quietEnv ["tmp", "tgo_tos"] (testTree "copy") = ([(["tmp"], testDir)], none) ∧
    Remove quietEnv ["tmp", "tgo_tos"] [(["tmp"], testDir)] = ([(["tmp"], testDir)], none) ∧
    (Remove deniedEnv ["tmp", "tgo_tos", "chmod", "test3"] (testTree "chmod")).2
      = some Error.PermissionDenied := by
  decide

/-! ## `Chown` and `GetFileCredentials` -/

theorem chownStep_ok (env : Env) (uid gid : ℕ) (fs fs1 : FS) (p : Path)
    (h : chownStep env uid gid fs p = (fs1, none)) :
    env.fault p = none ∧
      ∃ x, lookup fs p = some x ∧ fs1 = store fs p { x with uid := uid, gid := gid } := by
  unfold chownStep at h
  cases hs : stat env fs p with
  | inl err => rw [hs] at h; simp at h
  | inr x =>
    rw [hs] at h
    simp only at h
    split_ifs at h with hpriv
    · simp only [Prod.mk.injEq, and_true] at h
      exact ⟨(stat_ok env fs p x hs).1, x, (stat_ok env fs p x hs).2, h.symm⟩
    · simp at h

/-- C12, as stated, fails: with user id 0 listed as `root` and then as `toor`, both names
are resolvable, to the same id, so the id resolves back to one of them only:
`Chown(T, "toor", "wheel")` succeeds on the tree of the tests, yet `GetFileCredentials` of
the root of `T` returns `("root", "wheel")`. -/
theorem Chown_GetFileCredentials_counterexample :
    idOf aliasIdentities.users "root" = some 0 ∧
    idOf aliasIdentities.users "toor" = some 0 ∧
    idOf aliasIdentities.groups "wheel" = some 0 ∧
    (Chown quietEnv aliasIdentities (testRoot "chown") "toor" "wheel" (testTree "chown")).2
      = none ∧
    testRoot "chown" ∈
      walkPaths
        (Chown quietEnv aliasIdentities (testRoot "chown") "toor" "wheel" (testTree "chown")).1
        (testRoot "chown") ∧
    GetFileCredentials quietEnv aliasIdentities
      (Chown quietEnv aliasIdentities (testRoot "chown") "toor" "wheel" (testTree "chown")).1
      (testRoot "chown") = Sum.inr ("root", "wheel") := by
  decide

/-- C12, amended: for a user name `u` and a group name `g` that resolve to ids which the
identity database resolves back to `u` and `g`, after `Chown(T, u, g)` succeeds a walk of
`T` visits the root and every entry that was in `T`, and `GetFileCredentials(p)` returns
`(u, g)` without error for every entry `p` it visits. -/
theorem Chown_then_GetFileCredentials (env : Env) (db : Identities) (fs : FS) (root : Path)
    (u g : String)
    (hu : (idOf db.users u).bind (nameOf db.users) = some u)
    (hg : (idOf db.groups g).bind (nameOf db.groups) = some g)
    (hok : (Chown env db root u g fs).2 = none) :
    root ∈ walkPaths (Chown env db root u g fs).1 root ∧
    (∀ p ∈ walkPaths (Chown env db root u g fs).1 root,
      GetFileCredentials env db (Chown env db root u g fs).1 p = Sum.inr (u, g)) ∧
    (∀ (rel : Path) (e0 : Entry), lookup fs (root ++ rel) = some e0 →
      root ++ rel ∈ walkPaths (Chown env db root u g fs).1 root) := by
  cases hi : idOf db.users u with
  | none => rw [hi] at hu; simp at hu
  | some uid =>
    cases hj : idOf db.groups g with
    | none => rw [hj] at hg; simp at hg
    | some gid =>
      rw [hi] at hu
      rw [hj] at hg
      simp only [Option.some_bind] at hu hg
      unfold Chown at hok ⊢
      simp only [hi, hj] at hok ⊢
      cases hroot : lookup fs root with
      | none => simp [hroot] at hok
      | some r =>
        simp only [hroot] at hok ⊢
        have key := forEach_invariant (chownStep env uid gid) (fun _ => True)
          (fun fs1 => fs1.map Prod.fst = fs.map Prod.fst)
          (fun fs1 p => env.fault p = none ∧
            ∃ e, lookup fs1 p = some e ∧ e.uid = uid ∧ e.gid = gid)
          (by
            intro fs1 p fs2 _ hinv hs
            obtain ⟨hf, x, hx, rfl⟩ := chownStep_ok env uid gid fs1 fs2 p hs
            refine ⟨?_, ?_, ?_⟩
            · show (store fs1 p _).map Prod.fst = fs.map Prod.fst
              rw [keys_store_of_lookup fs1 p _ x hx, hinv]
            · exact ⟨hf, _, lookup_store_self _ _ _, rfl, rfl⟩
            · rintro q ⟨hfq, e, he, heu, heg⟩
              by_cases hqp : q = p
              · subst hqp
                exact ⟨hfq, _, lookup_store_self _ _ _, rfl, rfl⟩
              · exact ⟨hfq, e, by rw [lookup_store_ne _ _ hqp]; exact he, heu, heg⟩)
          (walkPaths fs root) fs (fun _ _ => trivial) rfl hok
        obtain ⟨hkeys, hall, -⟩ := key
        rw [walkPaths_congr _ _ root hkeys]
        refine ⟨?_, ?_, ?_⟩
        · rw [mem_walkPaths]
          exact ⟨(lookup_isSome_iff_mem fs root).mp ⟨r, hroot⟩, under_self root⟩
        · intro p hp
          obtain ⟨hf, e, he, heu, heg⟩ := hall p hp
          unfold GetFileCredentials stat
          simp only [hf, he, heu, heg, hu, hg]
        · intro rel e0 he0
          rw [mem_walkPaths]
          exact ⟨(lookup_isSome_iff_mem fs _).mp ⟨e0, he0⟩, under_append root rel⟩

theorem Chown_then_GetFileCredentials_witness :
    (idOf testIdentities.users "nobody").bind (nameOf testIdentities.users) = some "nobody" ∧
    (idOf testIdentities.groups "nobody").bind (nameOf testIdentities.groups)
      = some "nobody" ∧
    (Chown quietEnv testIdentities (testRoot "chown") "nobody" "nobody" (testTree "chown")).2
      = none ∧
    (testRoot "chown" ∈
      walkPaths
        (Chown quietEnv testIdentities (testRoot "chown") "nobody" "nobody"
          (testTree "chown")).1 (testRoot "chown") ∧
    (∀ p ∈ walkPaths
        (Chown quietEnv testIdentities (testRoot "chown") "nobody" "nobody"
          (testTree "chown")).1 (testRoot "chown"),
      GetFileCredentials quietEnv testIdentities
        (Chown quietEnv testIdentities (testRoot "chown") "nobody" "nobody"
          (testTree "chown")).1 p = Sum.inr ("nobody", "nobody")) ∧
    (∀ (rel : Path) (e0 : Entry), lookup (testTree "chown") (testRoot "chown" ++ rel) = some e0 →
      testRoot "chown" ++ rel ∈
        walkPaths
          (Chown quietEnv testIdentities (testRoot "chown") "nobody" "nobody"
            (testTree "chown")).1 (testRoot "chown"))) :=
  ⟨by decide, by decide, by decide,
    Chown_then_GetFileCredentials quietEnv testIdentities (testTree "chown") (testRoot "chown")
      "nobody" "nobody" (by decide) (by decide) (by decide)⟩

/-- The failures of `Chown`: an unresolvable name is an `UnknownIdentity` and nothing is
changed; a root that does not exist is a `NotFound`; a caller without privilege is denied. -/
theorem Chown_failures :
    Chown quietEnv testIdentities (testRoot "chown") "nobodyx" "nobody" (testTree "chown")
      = (testTree "chown", some Error.UnknownIdentity) ∧
    (Chown quietEnv testIdentities (testRoot "nothing") "nobody" "nobody" (testTree "chown")).2
      = some Error.NotFound ∧
    Chown deniedEnv testIdentities (testRoot "chown") "nobody" "nobody" (testTree "chown")
      = (testTree "chown", some Error.PermissionDenied) := by
  decide

end tos
